import Mathlib

/-
Verification of the simple-cfg configuration library (src/simple_cfg/cfg.py).

Python strings are modelled as lists of characters (`Str`), Python runtime
values that appear as configuration defaults or YAML leaves as `PyVal`, and
nested configuration mappings (Python dicts / OmegaConf DictConfig) as
association lists `Dict` whose entries are either leaves or nested mappings.
Python dict assignment `d[k] = v` is modelled by `dinsert` (overwrite in
place if the key is present, append otherwise), which matches the
insertion-ordered semantics of Python dicts.

The separators used by the library ("/" and ".") are single characters, so
the separator parameter `sep` of `flatten_dict` / `unflatten_dict` is
modelled as a `Char`; `str.split(sep)` for a one-character separator is
modelled by `pySplit`.

Functions that can raise in Python return `Except Str` (the error message)
or `Option` (for the dynamic type errors `insert_rec` can hit).
-/

set_option autoImplicit false

universe u

/-- Python strings, modelled as lists of characters. -/
abbrev Str := List Char

/-- Runtime values that occur as defaults and YAML scalars: None, bool, int,
str, plus `vobj tyname srep`, an object of a type outside `_TYPE_MAPPINGS`
with class name `tyname` and string representation `srep`. -/
inductive PyVal where
  | vnone
  | vbool (b : Bool)
  | vint (n : Int)
  | vstr (s : Str)
  | vobj (tyname : Str) (srep : Str)

deriving DecidableEq, Inhabited

/-- An entry of a nested configuration mapping: a scalar leaf or a nested
mapping (Python dict / DictConfig). -/
inductive Entry where
  | leaf : PyVal → Entry
  | sub : List (Str × Entry) → Entry

instance : Inhabited Entry := ⟨.leaf .vnone⟩

/-- A nested configuration mapping, as an insertion-ordered association list. -/
abbrev Dict := List (Str × Entry)

/-- Python dict assignment `d[k] = v`: overwrite the entry in place when the
key is present, append a new entry otherwise. -/
def dinsert {α : Type u} (k : Str) (v : α) (d : List (Str × α)) : List (Str × α) :=
  if (List.lookup k d).isSome then d.map (fun p => if p.1 = k then (k, v) else p)
  else d ++ [(k, v)]

/-- Python `out.update(new)`: insert every pair of `new`, in order, into `out`. -/
def updAll {α : Type u} (new : List (Str × α)) (out : List (Str × α)) : List (Str × α) :=
  new.foldl (fun o kv => dinsert kv.1 kv.2 o) out

/-- The loop of `flatten_dict` (cfg.py lines 59-69): walk the entries in
order, and build `out_dict` by `out_dict[k] = v` for leaves and
`out_dict.update` of the recursively flattened, prefixed sub-mapping for
nested mappings. -/
def flattenAux (c : Char) : Dict → List (Str × PyVal) → List (Str × PyVal)
  | [], out => out
  | (k, .leaf v) :: rest, out => flattenAux c rest (dinsert k v out)
  | (k, .sub s) :: rest, out =>
      flattenAux c rest (updAll ((flattenAux c s []).map (fun kv => (k ++ c :: kv.1, kv.2))) out)

/-- Python `flatten_dict(d, sep)`: flatten nested mappings, joining parent
and child keys with the separator character. -/
def flatten_dict (c : Char) (d : Dict) : List (Str × PyVal) := flattenAux c d []

/-- Python `str.split(sep)` for a one-character separator `sep`. -/
def pySplit (c : Char) : Str → List Str
  | [] => [[]]
  | x :: xs =>
    if x = c then [] :: pySplit c xs
    else
      match pySplit c xs with
      | [] => [[x]]
      | h :: t => (x :: h) :: t

/-- The recursive insertion `insert_rec` of `unflatten_dict` (cfg.py lines
84-93): walk the components of the split key, creating nested mappings as
needed; `none` models the TypeError Python raises when an intermediate
component is already bound to a non-mapping value (`k not in root` on a
non-dict), and the unreachable empty-path case (`str.split` never returns
an empty list). -/
def insert_rec : Dict → List Str → PyVal → Option Dict
  | root, [k], value => some (dinsert k (.leaf value) root)
  | root, k :: rest, value =>
      match List.lookup k root with
      | none => (insert_rec [] rest value).map (fun r => dinsert k (.sub r) root)
      | some (.sub d) => (insert_rec d rest value).map (fun r => dinsert k (.sub r) root)
      | some (.leaf _) => none
  | _, [], _ => none

/-- The loop of `unflatten_dict`: insert each pre-split key in order. -/
def insertAll : Dict → List (List Str × PyVal) → Option Dict
  | root, [] => some root
  | root, (p, v) :: rest =>
      match insert_rec root p v with
      | some root' => insertAll root' rest
      | none => none

/-- Python `unflatten_dict(d, sep)`: split each flat key on the separator
and insert it into the output mapping. -/
def unflatten_dict (c : Char) (d : List (Str × PyVal)) : Option Dict :=
  insertAll [] (d.map (fun kv => (pySplit c kv.1, kv.2)))

/-- Leaf paths of a nested mapping, in the traversal order of
`flatten_dict`: a leaf entry contributes its key as a singleton path, a
nested mapping contributes its sub-paths extended with its key. Entries
whose value is an empty mapping contribute nothing. -/
def pathsOf : Dict → List (List Str × PyVal)
  | [] => []
  | (k, .leaf v) :: rest => ([k], v) :: pathsOf rest
  | (k, .sub s) :: rest => (pathsOf s).map (fun pv => (k :: pv.1, pv.2)) ++ pathsOf rest

/-- Join a non-empty key path with the separator character, as the flat keys
built by `flatten_dict` (`f"{k}{sep}{sub_k}"`). -/
def joinP (c : Char) : List Str → Str
  | [] => []
  | [k] => k
  | k :: rest => k ++ c :: joinP c rest

/-- Well-formedness of a nested mapping for the flatten/unflatten
round-trip: at every level the keys are pairwise distinct (every Python
dict satisfies this) and contain no separator character, and no entry is
an empty mapping. -/
def dictWF (c : Char) : Dict → Bool
  | [] => true
  | (k, .leaf _) :: rest =>
      !(k.contains c) && !(rest.any (fun p => p.1 = k)) && dictWF c rest
  | (k, .sub s) :: rest =>
      !(k.contains c) && !(rest.any (fun p => p.1 = k)) && !(s.isEmpty) &&
        dictWF c s && dictWF c rest

/-- The hypothesis of claim C2 taken literally: no key bound to a leaf value
contains the separator character (keys of nested mappings are not
constrained). -/
def leafSepFree (c : Char) : Dict → Bool
  | [] => true
  | (k, .leaf _) :: rest => !(k.contains c) && leafSepFree c rest
  | (_, .sub s) :: rest => leafSepFree c s && leafSepFree c rest

/-- The nested singleton chain that `insert_rec` builds along a fresh path. -/
def chainP : List Str → PyVal → Dict
  | [], _ => []
  | [k], v => [(k, Entry.leaf v)]
  | k :: a :: t, v => [(k, Entry.sub (chainP (a :: t) v))]

deriving instance DecidableEq for Except

/-- Python `str.lower()` for the ASCII strings this library compares. -/
def pyLower (s : Str) : Str := s.map Char.toLower

/-- Python `str2bool` (cfg.py lines 101-123): a bool is returned as is, a
string is lowered and compared against the accepted true/false tokens, any
other string raises argparse.ArgumentTypeError("boolean value expected").
An input that is neither bool nor str raises AttributeError on `.lower()`,
modelled as an error as well. -/
def str2bool : PyVal → Except Str Bool
  | .vbool b => .ok b
  | .vstr v =>
      if pyLower v ∈ ["yes".toList, "true".toList, "t".toList, "y".toList, "1".toList] then
        .ok true
      else if pyLower v ∈ ["no".toList, "false".toList, "f".toList, "n".toList, "0".toList] then
        .ok false
      else .error "boolean value expected".toList
  | _ => .error "AttributeError: lower".toList

/-- Python runtime types, as used in `_TYPE_MAPPINGS` (cfg.py lines 12-28);
`tOther name` is any class outside the table. -/
inductive PyType where
  | tInt | tFloat | tStr | tBool | tList | tDict | tTuple | tSet | tFrozenset
  | tComplex | tBytes | tBytearray | tMemoryview | tRange | tNoneType
  | tOther (name : Str)

deriving DecidableEq

/-- The `_TYPE_MAPPINGS` table of cfg.py: runtime type to display label. -/
def _TYPE_MAPPINGS : PyType → Option Str
  | .tInt => some "Integer".toList
  | .tFloat => some "Float".toList
  | .tStr => some "String".toList
  | .tBool => some "Boolean".toList
  | .tList => some "List".toList
  | .tDict => some "Dictionary".toList
  | .tTuple => some "Tuple".toList
  | .tSet => some "Set".toList
  | .tFrozenset => some "Frozen Set".toList
  | .tComplex => some "Complex Number".toList
  | .tBytes => some "Bytes".toList
  | .tBytearray => some "Byte Array".toList
  | .tMemoryview => some "Memory View".toList
  | .tRange => some "Range".toList
  | .tNoneType => some "NoneType".toList
  | .tOther _ => none

/-- Python `get_cli_type_string(obj_type)`: `_TYPE_MAPPINGS.get(obj_type, None)`. -/
def get_cli_type_string (t : PyType) : Option Str := _TYPE_MAPPINGS t

/-- Python `type(v)` for the modelled values. -/
def typeOf : PyVal → PyType
  | .vnone => .tNoneType
  | .vbool _ => .tBool
  | .vint _ => .tInt
  | .vstr _ => .tStr
  | .vobj n _ => .tOther n

/-- Python `f"{v}"` for the modelled values. -/
def pyStr : PyVal → Str
  | .vnone => "None".toList
  | .vbool true => "True".toList
  | .vbool false => "False".toList
  | .vint n => (toString n).toList
  | .vstr s => s
  | .vobj _ srep => srep

/-- The coercion callable handed to `parser.add_argument(type=...)`: either a
plain type constructor (`str`, `int`, ...) or the `str2bool` function. -/
inductive ParseTy where
  | ofType (t : PyType)
  | boolFn

deriving DecidableEq

/-- A registered argparse option: flag string, default value, coercion
callable and help text; immutable once registered. -/
structure RegOpt where
  flag : Str
  default : PyVal
  ptype : ParseTy
  help : Str

deriving DecidableEq

/-- The display type of a default value in `add_args`: `str` for None,
`bool` for bools, `type(v)` otherwise. -/
def helpTypeOf : PyVal → PyType
  | .vnone => .tStr
  | .vbool _ => .tBool
  | v => typeOf v

/-- One iteration of the `add_args` loop (cfg.py lines 147-170): infer the
coercion and display types from the default value, build the flag name from
the optional dotted path (called `prefix` in the Python code) and the help
string from the display label, and register the option. -/
def mkRegOpt (pfx : Str) (kv : Str × PyVal) : RegOpt :=
  let v := kv.2
  let tys : ParseTy × PyType :=
    match v with
    | .vnone => (.ofType .tStr, .tStr)
    | .vbool _ => (.boolFn, .tBool)
    | _ => (.ofType (typeOf v), typeOf v)
  let flag : Str := if pfx ≠ [] then ['-', '-'] ++ pfx ++ '.' :: kv.1 else ['-', '-'] ++ kv.1
  let helper_string : Str :=
    match get_cli_type_string tys.2 with
    | none => "Default: `".toList ++ pyStr v ++ "` (Unknown type)".toList
    | some lbl => "Default: `".toList ++ pyStr v ++ "`. Type: ".toList ++ lbl
  ⟨flag, v, tys.1, helper_string⟩

/-- Python `add_args(parser, defaults, prefix)`: register one option per
entry of `defaults`, in order. -/
def add_args (parser : List RegOpt) (defaults : List (Str × PyVal)) (pfx : Str) :
    List RegOpt :=
  defaults.foldl (fun p kv => p ++ [mkRegOpt pfx kv]) parser

/-- The inputs `get_default_args` can receive: a function (its signature's
parameters with optional defaults, plus the value it returns when called
with no arguments), a class (the parameters of its `__init__`, normally
starting with "self"), a plain mapping, or any other object (with the
display of its type). -/
inductive PyObj where
  | func (params : List (Str × Option PyVal)) (ret : List (Str × PyVal))
  | cls (initParams : List (Str × Option PyVal))
  | mapping (m : List (Str × PyVal))
  | other (tyname : Str)

/-- Python `type(obj)` display for the modelled objects. -/
def typeNameOf : PyObj → Str
  | .func _ _ => "<class 'function'>".toList
  | .cls _ => "<class 'type'>".toList
  | .mapping _ => "<class 'dict'>".toList
  | .other n => n

/-- The error message of `get_default_from_signature` for the given list of
parameters without defaults. -/
def missingDefaultsMsg (missing : List Str) : Str :=
  "The following parameters have no default_values. Please define a default value for the parser to work:\n".toList
    ++ List.intercalate ['\n'] (missing.map (fun v => ['\t', '*', ' '] ++ v))

/-- Python `get_default_from_signature` (cfg.py lines 173-190): walk the
parameters in order, skipping "self", collecting defaults and the
parameters that have none; raise an error enumerating the latter when any
exist. -/
def get_default_from_signature (ps : List (Str × Option PyVal)) :
    Except Str (List (Str × PyVal)) :=
  let st := ps.foldl (fun (acc : List (Str × PyVal) × List Str) kv =>
    if kv.1 = "self".toList then acc
    else
      match kv.2 with
      | none => (acc.1, acc.2 ++ [kv.1])
      | some d => (acc.1 ++ [(kv.1, d)], acc.2)) ([], [])
  if st.2.length > 0 then .error (missingDefaultsMsg st.2)
  else .ok st.1

/-- Python `get_default_from_fn`: a zero-parameter function is called and
its returned mapping trusted; otherwise the signature is inspected. -/
def get_default_from_fn (params : List (Str × Option PyVal)) (ret : List (Str × PyVal)) :
    Except Str (List (Str × PyVal)) :=
  if params.length = 0 then .ok ret
  else get_default_from_signature params

/-- Python `get_default_from_class`: inspect the `__init__` signature. -/
def get_default_from_class (initParams : List (Str × Option PyVal)) :
    Except Str (List (Str × PyVal)) :=
  get_default_from_signature initParams

/-- Python `get_default_args` (cfg.py lines 206-214): only functions and
classes are accepted; anything else (including a plain dict) is rejected
with an error naming its type. -/
def get_default_args : PyObj → Except Str (List (Str × PyVal))
  | .func ps ret => get_default_from_fn ps ret
  | .cls ps => get_default_from_class ps
  | o => .error ("`obj` should be either a callable function or a class. Current type: `".toList
      ++ typeNameOf o ++ ['`'])

/-- The parameters of a signature that lack a default (excluding "self"),
in order. -/
def missingOf (ps : List (Str × Option PyVal)) : List Str :=
  (ps.filter (fun kv => kv.1 ≠ "self".toList ∧ kv.2 = none)).map Prod.fst

/-- The (name, default) pairs of a signature (excluding "self"), in order. -/
def givenOf (ps : List (Str × Option PyVal)) : List (Str × PyVal) :=
  (ps.filter (fun kv => kv.1 ≠ "self".toList ∧ kv.2.isSome)).map
    (fun kv => (kv.1, kv.2.getD .vnone))

/-- Python `int(s)` on the decimal string literals that occur as CLI values
(optional sign, then digits). -/
def natOfDigits (ds : Str) : Nat := ds.foldl (fun a ch => a * 10 + (ch.toNat - '0'.toNat)) 0

def parseInt : Str → Option Int
  | '-' :: ds => if ds ≠ [] ∧ ds.all Char.isDigit then some (-(Int.ofNat (natOfDigits ds))) else none
  | '+' :: ds => if ds ≠ [] ∧ ds.all Char.isDigit then some (Int.ofNat (natOfDigits ds)) else none
  | ds => if ds ≠ [] ∧ ds.all Char.isDigit then some (Int.ofNat (natOfDigits ds)) else none

/-- Application of a registered coercion callable to a CLI token: `str` is
the identity on strings, `int` parses a decimal literal, `str2bool` parses
the boolean tokens. The container/float coercions are not exercised by any
registered option modelled here; applying one is an error. -/
def coerceTok : ParseTy → Str → Except Str PyVal
  | .boolFn, tok => (str2bool (.vstr tok)).map PyVal.vbool
  | .ofType .tStr, tok => .ok (.vstr tok)
  | .ofType .tInt, tok =>
      match parseInt tok with
      | some n => .ok (.vint n)
      | none => .error ("invalid int value: ".toList ++ tok)
  | .ofType _, _ => .error "coercion not modelled".toList

/-- The argparse destination of a registered option: its flag without the
leading "--". -/
def destOf (o : RegOpt) : Str := o.flag.drop 2

/-- Look up a registered option by its option string (with dashes). -/
def findOpt (opts : List RegOpt) (optStr : Str) : Option RegOpt :=
  opts.find? (fun o => o.flag == optStr)

/-- Split a "--name=value" token at the first '=': returns the option string
and the inline value, if any. -/
def splitEq (tok : Str) : Str × Option Str :=
  let pre := tok.takeWhile (fun ch => ch ≠ '=')
  if pre.length = tok.length then (tok, none)
  else (pre, some (tok.drop (pre.length + 1)))

/-- Model of argparse's `parse_known_args` restricted to the option shapes
this library registers: every option is an optional "--name" flag taking
exactly one value, supplied either as "--name value" or "--name=value".
The namespace starts from the registered defaults in registration order
and is updated in place; unknown "--" tokens and stray positionals are
collected as extras; a missing value or failing coercion is an error
(argparse exits). -/
def pkaLoop (opts : List RegOpt) : List Str → List (Str × PyVal) → List Str →
    Except Str (List (Str × PyVal) × List Str)
  | [], ns, extras => .ok (ns, extras)
  | tok :: rest, ns, extras =>
    if tok.take 2 = ['-', '-'] then
      match findOpt opts (splitEq tok).1 with
      | some o =>
          match (splitEq tok).2 with
          | some v =>
              match coerceTok o.ptype v with
              | .ok pv => pkaLoop opts rest (dinsert (destOf o) pv ns) extras
              | .error e => .error e
          | none =>
              match rest with
              | [] => .error ("argument ".toList ++ (splitEq tok).1 ++ ": expected one argument".toList)
              | v :: rest' =>
                  if v.take 2 = ['-', '-'] then
                    .error ("argument ".toList ++ (splitEq tok).1 ++ ": expected one argument".toList)
                  else
                    match coerceTok o.ptype v with
                    | .ok pv => pkaLoop opts rest' (dinsert (destOf o) pv ns) extras
                    | .error e => .error e
      | none => pkaLoop opts rest ns (extras ++ [tok])
    else pkaLoop opts rest ns (extras ++ [tok])

/-- `parser.parse_known_args()`: parse `argv[1:]` against the registered
options, starting from the defaults. -/
def parse_known_args (opts : List RegOpt) (argv : List Str) :
    Except Str (List (Str × PyVal) × List Str) :=
  pkaLoop opts (argv.drop 1) (opts.map (fun o => (destOf o, o.default))) []

/-- Python `get_cli_passed_args` (cfg.py lines 237-249): the set of tokens
of `sys.argv[1:]` that start with "--", with that marker stripped, minus
{"cfg_from"}; modelled as an insertion-ordered duplicate-free list. -/
def get_cli_passed_args (argv : List Str) : List Str :=
  ((argv.drop 1).foldl (fun s arg =>
      if arg.take 2 = ['-', '-'] then
        (if arg.drop 2 ∈ s then s else s ++ [arg.drop 2])
      else s) []).filter
    (fun k => k ≠ "cfg_from".toList)

/-- The override loop of the cfg_from branch of `parse_args` (cfg.py lines
339-341): for each explicitly passed CLI key, `vassert` that it is a known
argument and overwrite the flat file-derived value with the parsed one. -/
def overrideCli : List Str → List (Str × PyVal) → List (Str × PyVal) →
    Except Str (List (Str × PyVal))
  | [], _, flat => .ok flat
  | k :: ks, ns, flat =>
      match List.lookup k ns with
      | none => .error ("Unknown CLI arg passed: `".toList ++ k ++ "`.".toList)
      | some v => overrideCli ks ns (dinsert k v flat)

/-- The merged flat configuration computed by the cfg_from branch of
`parse_args` (cfg.py lines 325-341) before unflattening: flatten the loaded
YAML mapping with ".", take the explicitly passed CLI keys (restricted to
known keys when `parse_known_only`), and overwrite file-derived values with
the CLI-parsed ones. The filesystem is modelled by `fs`, mapping a path to
the nested mapping `yaml.safe_load` returns for it. -/
def merged_flat_cfg (opts : List RegOpt) (fs : Str → Dict) (argv : List Str)
    (pko : Bool) : Except Str (List (Str × PyVal)) := do
  let kn ← parse_known_args opts argv
  let known_ns := kn.1
  match List.lookup "cfg_from".toList known_ns with
  | some (.vstr path) =>
      let flat_yaml := flatten_dict '.' (fs path)
      let cli := get_cli_passed_args argv
      let cli2 := if pko then cli.filter (fun k => (known_ns.map Prod.fst).contains k) else cli
      overrideCli cli2 known_ns flat_yaml
  | _ => .error "cfg_from is not set".toList

/-- `parser.parse_args([])`: with no tokens every option keeps its default,
so the namespace is the registered (dest, default) list. -/
def parse_args_empty (opts : List RegOpt) : List (Str × PyVal) :=
  opts.map (fun o => (destOf o, o.default))

/-- Python `check_missing_keys` (cfg.py lines 252-281): compare the
authoritative key set (re-parse with no arguments) with the flattened
actual keys; raise listing every missing key, else raise listing every
additional key, else succeed. -/
def check_missing_keys (opts : List RegOpt) (args : Dict) : Except Str Unit :=
  let keys := (parse_args_empty opts).map Prod.fst
  let actual_keys := (flatten_dict '.' args).map Prod.fst
  let missing_keys := keys.filter (fun k => !(actual_keys.contains k))
  let additional_keys := actual_keys.filter (fun k => !(keys.contains k))
  if missing_keys.length > 0 then
    .error ("Missing keys in config:".toList
      ++ (missing_keys.map (fun k => "\n    * `".toList ++ k ++ ['`'])).flatten)
  else if additional_keys.length > 0 then
    .error ("Unknown keys in arguments not required by program:".toList
      ++ (additional_keys.map (fun k => "\n    * `".toList ++ k ++ ['`'])).flatten)
  else .ok ()

/-- Python `parse_args` (cfg.py lines 311-368) up to and excluding the final
workdir resolution, which reads the clock and filesystem and is modelled
separately by `check_workdir`: parse known args; if cfg_from is set, load
and merge the file (the merged flat map is additionally pruned to known
keys under `parse_known_only`); otherwise unflatten either the known-args
namespace (`parse_known_only`) or the strict parse result (which fails on
any unrecognized token); finally validate the key set unless
`parse_known_only`. -/
def parse_args_core (opts : List RegOpt) (fs : Str → Dict) (argv : List Str)
    (pko : Bool) : Except Str Dict := do
  let kn ← parse_known_args opts argv
  let known_ns := kn.1
  let extras := kn.2
  let args ← (
    match List.lookup "cfg_from".toList known_ns with
    | none => .error "AttributeError: cfg_from".toList
    | some (.vstr _) => do
        let flat ← merged_flat_cfg opts fs argv pko
        let flat2 := if pko then flat.filter (fun p => (known_ns.map Prod.fst).contains p.1)
          else flat
        match unflatten_dict '.' flat2 with
        | some d => Except.ok d
        | none => Except.error "TypeError in unflatten_dict".toList
    | some PyVal.vnone =>
        if pko then
          match unflatten_dict '.' known_ns with
          | some d => Except.ok d
          | none => Except.error "TypeError in unflatten_dict".toList
        else if extras ≠ [] then
          Except.error ("unrecognized arguments: ".toList ++ (List.intercalate [' '] extras))
        else
          match unflatten_dict '.' known_ns with
          | some d => Except.ok d
          | none => Except.error "TypeError in unflatten_dict".toList
    | some _ => .error "TypeError: invalid file path".toList)
  if pko then Except.ok args
  else do
    check_missing_keys opts args
    Except.ok args

/-- The reserved defaults of `default_arguments()` (cfg.py lines 126-136). -/
def default_arguments : List (Str × PyVal) :=
  [("seed".toList, PyVal.vint 0), ("cfg_from".toList, PyVal.vnone),
    ("workdir".toList, PyVal.vnone)]

/-- Python `get_parser()`: a fresh parser holding the reserved defaults. -/
def getParserOpts : List RegOpt := add_args [] default_arguments []

/-- The example parser of claim C1: the reserved defaults plus an option
"a.b" whose registered default 7 differs from both the file value and the
CLI value. -/
def cfgExOpts : List RegOpt := add_args getParserOpts [("a.b".toList, PyVal.vint 7)] []

/-- The example filesystem of claim C1: "cfg.yaml" holds {"a": {"b": 1}}. -/
def cfgExFs : Str → Dict := fun p =>
  if p = "cfg.yaml".toList then [("a".toList, Entry.sub [("b".toList, Entry.leaf (PyVal.vint 1))])]
  else []

def cfgExArgv1 : List Str :=
  ["prog".toList, "--cfg_from".toList, "cfg.yaml".toList, "--a.b".toList, "2".toList]

def cfgExArgv2 : List Str := ["prog".toList, "--cfg_from".toList, "cfg.yaml".toList]

/-- The example parser of claim C9: the reserved defaults plus an "lr"
option with default 0. -/
def cliExOpts : List RegOpt := add_args getParserOpts [("lr".toList, PyVal.vint 0)] []

/-- The example filesystem of claim C9: "c.yaml" holds {"lr": 1}. -/
def cliExFs : Str → Dict := fun p =>
  if p = "c.yaml".toList then [("lr".toList, Entry.leaf (PyVal.vint 1))] else []

def cliExArgv : List Str :=
  ["prog".toList, "--cfg_from".toList, "c.yaml".toList, "--lr=3".toList]

/-- The example filesystem of claim C3: "c.yaml" holds {"seed": 5} only. -/
def valExFs : Str → Dict := fun p =>
  if p = "c.yaml".toList then [("seed".toList, Entry.leaf (PyVal.vint 5))] else []

def valExArgv : List Str := ["prog".toList, "--cfg_from".toList, "c.yaml".toList]

/-- Python `osp.join(a, b)` for a relative second component. -/
def ospJoin (a b : Str) : Str := a ++ '/' :: b

/-- The candidate working directory `./runs/{script}/{day}/{time}`. -/
def wdPath (script day time : Str) : Str :=
  ospJoin (ospJoin (ospJoin "./runs".toList script) day) time

/-- The retried time component `now.strftime(f"%H:%M:%S({idx})")`: the time
string with the numeric suffix "(idx)". -/
def timeWithIdx (time : Str) (idx : Nat) : Str :=
  time ++ '(' :: (toString idx).toList ++ [')']

/-- The collision loop of `check_workdir` (cfg.py lines 300-304): while the
candidate exists, rebuild it with the next numeric suffix, starting at
index 2. The Python `while` has no bound; `fuel` bounds the modelled loop
and `none` stands for non-termination (a filesystem where every candidate
exists). -/
def wdLoop (pathExists : Str → Bool) (script day time : Str) :
    Nat → Nat → Str → Option Str
  | fuel, idx, wd =>
    if pathExists wd then
      match fuel with
      | 0 => none
      | f + 1 =>
          wdLoop pathExists script day time f (idx + 1)
            (wdPath script day (timeWithIdx time idx))
    else some wd

/-- The path computed by `check_workdir`: the loop started on the plain
candidate with index 2, as in the Python code. -/
def resolve_workdir (pathExists : Str → Bool) (script day time : Str) (fuel : Nat) :
    Option Str :=
  wdLoop pathExists script day time fuel 2 (wdPath script day time)

/-- Python `check_workdir(args)` (cfg.py lines 284-308), with the clock
outputs (`script`, `day`, `time`) and the filesystem (`pathExists`) as
explicit inputs: resolve a non-existing working directory and store it in
the `workdir` field of the configuration. -/
def check_workdir (pathExists : Str → Bool) (script day time : Str) (fuel : Nat)
    (args : Dict) : Option Dict :=
  match resolve_workdir pathExists script day time fuel with
  | some wd => some (dinsert "workdir".toList (Entry.leaf (PyVal.vstr wd)) args)
  | none => none

/-- Structural induction principle for nested configuration mappings. -/
theorem dictInd (P : Dict → Prop) (h1 : P [])
    (h2 : ∀ k v rest, P rest → P ((k, Entry.leaf v) :: rest))
    (h3 : ∀ k s rest, P s → P rest → P ((k, Entry.sub s) :: rest)) : ∀ d : Dict, P d
  | [] => h1
  | (k, Entry.leaf v) :: rest => h2 k v rest (dictInd P h1 h2 h3 rest)
  | (k, Entry.sub s) :: rest =>
      h3 k s rest (dictInd P h1 h2 h3 s) (dictInd P h1 h2 h3 rest)
termination_by d => sizeOf d

theorem lookup_eq_none {α : Type u} {k : Str} {d : List (Str × α)} :
    List.lookup k d = none ↔ k ∉ d.map Prod.fst := by
  induction d with
  | nil => exact iff_of_true rfl (List.not_mem_nil k)
  | cons p rest ih =>
    obtain ⟨k', v⟩ := p
    by_cases h : k' = k
    · subst h
      simp only [List.lookup_cons_self, List.map_cons, List.mem_cons]
      exact iff_of_false (fun h => Option.noConfusion h) (fun h => h (Or.inl trivial))
    · simp only [List.lookup_cons, beq_false_of_ne (Ne.symm h), List.map_cons, List.mem_cons]
      rw [ih]
      constructor
      · intro hn hm
        rcases hm with hm | hm
        · exact h hm.symm
        · exact hn hm
      · intro hn hm
        exact hn (Or.inr hm)

theorem lookup_isSome {α : Type u} {k : Str} {d : List (Str × α)} :
    (List.lookup k d).isSome = true ↔ k ∈ d.map Prod.fst := by
  rw [Option.isSome_iff_ne_none]
  exact not_iff_comm.mp lookup_eq_none.symm

theorem dinsert_fresh {α : Type u} {k : Str} {v : α} {d : List (Str × α)}
    (h : k ∉ d.map Prod.fst) : dinsert k v d = d ++ [(k, v)] := by
  rw [dinsert, if_neg]
  rw [lookup_eq_none.mpr h]
  exact fun hc => Bool.noConfusion hc

theorem lookup_append_left {α : Type u} {k : Str} {d d' : List (Str × α)}
    (h : k ∈ d.map Prod.fst) : List.lookup k (d ++ d') = List.lookup k d := by
  induction d with
  | nil => exact absurd h (List.not_mem_nil k)
  | cons p rest ih =>
    obtain ⟨k', v⟩ := p
    by_cases hk : k' = k
    · subst hk
      rw [List.cons_append, List.lookup_cons_self, List.lookup_cons_self]
    · simp only [List.map_cons, List.mem_cons] at h
      rcases h with h | h
      · exact absurd h.symm hk
      · rw [List.cons_append]
        simp only [List.lookup_cons, beq_false_of_ne (Ne.symm hk)]
        exact ih h

theorem lookup_append_right {α : Type u} {k : Str} {d d' : List (Str × α)}
    (h : k ∉ d.map Prod.fst) : List.lookup k (d ++ d') = List.lookup k d' := by
  induction d with
  | nil => rfl
  | cons p rest ih =>
    obtain ⟨k', v⟩ := p
    simp only [List.map_cons, List.mem_cons, not_or] at h
    rw [List.cons_append]
    simp only [List.lookup_cons, beq_false_of_ne h.1]
    exact ih h.2

theorem lookup_map_replace_self {α : Type u} {k : Str} {v : α} {d : List (Str × α)}
    (h : k ∈ d.map Prod.fst) :
    List.lookup k (d.map (fun p => if p.1 = k then (k, v) else p)) = some v := by
  induction d with
  | nil => exact absurd h (by rw [List.map_nil]; exact List.not_mem_nil k)
  | cons p rest ih =>
    obtain ⟨a, w⟩ := p
    by_cases ha : a = k
    · subst ha
      rw [List.map_cons, if_pos rfl, List.lookup_cons_self]
    · rw [List.map_cons, if_neg ha, List.lookup_cons]
      rw [beq_false_of_ne (Ne.symm ha)]
      rw [List.map_cons, List.mem_cons] at h
      rcases h with h | h
      · exact absurd h.symm ha
      · exact ih h

theorem lookup_map_replace_ne {α : Type u} {k k' : Str} {v : α} {d : List (Str × α)}
    (h : k' ≠ k) :
    List.lookup k' (d.map (fun p => if p.1 = k then (k, v) else p)) = List.lookup k' d := by
  induction d with
  | nil => rfl
  | cons p rest ih =>
    obtain ⟨a, w⟩ := p
    by_cases ha : a = k
    · subst ha
      rw [List.map_cons, if_pos rfl, List.lookup_cons, List.lookup_cons]
      rw [beq_false_of_ne h]
      exact ih
    · rw [List.map_cons, if_neg ha, List.lookup_cons, List.lookup_cons]
      by_cases ha' : a = k'
      · subst ha'
        rw [beq_self_eq_true]
      · rw [beq_false_of_ne (Ne.symm ha')]
        exact ih

theorem map_replace_id {α : Type u} {k : Str} {v : α} {d : List (Str × α)}
    (h : k ∉ d.map Prod.fst) :
    d.map (fun p => if p.1 = k then (k, v) else p) = d := by
  induction d with
  | nil => rfl
  | cons p rest ih =>
    obtain ⟨a, b⟩ := p
    rw [List.map_cons, List.mem_cons, not_or] at h
    rw [List.map_cons, if_neg (fun e => h.1 e.symm), ih h.2]

theorem dinsert_keys_of_mem {α : Type u} {k : Str} {v : α} {d : List (Str × α)}
    (h : k ∈ d.map Prod.fst) :
    (dinsert k v d).map Prod.fst = d.map Prod.fst := by
  rw [dinsert, if_pos (lookup_isSome.mpr h), List.map_map]
  apply List.map_congr_left
  intro p _
  by_cases hp : p.1 = k
  · simp only [Function.comp_apply, if_pos hp]
    exact hp.symm
  · simp only [Function.comp_apply, if_neg hp]

theorem lookup_dinsert_self {α : Type u} {k : Str} {v : α} {d : List (Str × α)} :
    List.lookup k (dinsert k v d) = some v := by
  by_cases h : k ∈ d.map Prod.fst
  · rw [dinsert, if_pos (lookup_isSome.mpr h)]
    exact lookup_map_replace_self h
  · rw [dinsert_fresh h, lookup_append_right h, List.lookup_cons_self]

theorem lookup_dinsert_ne {α : Type u} {k k' : Str} {v : α} {d : List (Str × α)}
    (h : k' ≠ k) : List.lookup k' (dinsert k v d) = List.lookup k' d := by
  by_cases hm : k ∈ d.map Prod.fst
  · rw [dinsert, if_pos (lookup_isSome.mpr hm)]
    exact lookup_map_replace_ne h
  · rw [dinsert_fresh hm]
    by_cases hk' : k' ∈ d.map Prod.fst
    · exact lookup_append_left hk'
    · rw [lookup_append_right hk', (lookup_eq_none (d := d)).mpr hk', List.lookup_cons]
      rw [beq_false_of_ne h]
      rfl

theorem dinsert_snoc {α : Type u} {k : Str} {v w : α} {d : List (Str × α)}
    (h : k ∉ d.map Prod.fst) : dinsert k v (d ++ [(k, w)]) = d ++ [(k, v)] := by
  rw [dinsert, if_pos]
  · rw [List.map_append, map_replace_id h, List.map_cons, if_pos rfl, List.map_nil]
  · rw [lookup_append_right h, List.lookup_cons_self]
    rfl

theorem dinsert_dinsert {α : Type u} {k : Str} {a b : α} {d : List (Str × α)} :
    dinsert k a (dinsert k b d) = dinsert k a d := by
  by_cases h : k ∈ d.map Prod.fst
  · have e1 : dinsert k b d = d.map (fun p => if p.1 = k then (k, b) else p) := by
      rw [dinsert, if_pos (lookup_isSome.mpr h)]
    have e2 : dinsert k a d = d.map (fun p => if p.1 = k then (k, a) else p) := by
      rw [dinsert, if_pos (lookup_isSome.mpr h)]
    have hm2 : (List.lookup k (d.map (fun p => if p.1 = k then (k, b) else p))).isSome = true := by
      rw [lookup_map_replace_self h]
      rfl
    rw [e1, dinsert, if_pos hm2, e2, List.map_map]
    apply List.map_congr_left
    intro p _
    by_cases hp : p.1 = k
    · simp only [Function.comp_apply, if_pos hp]
      rw [if_pos trivial]
    · simp only [Function.comp_apply, if_neg hp]
  · rw [dinsert_fresh (v := b) h, dinsert_snoc h, dinsert_fresh h]

theorem lookup_eq_of_mem_nodup {α : Type u} {k : Str} {w : α} {d : List (Str × α)}
    (nd : (d.map Prod.fst).Nodup) (h : (k, w) ∈ d) : List.lookup k d = some w := by
  induction d with
  | nil => exact absurd h (List.not_mem_nil _)
  | cons p rest ih =>
    obtain ⟨a, b⟩ := p
    rw [List.map_cons, List.nodup_cons] at nd
    rcases List.mem_cons.mp h with h | h
    · injection h with e1 e2
      subst e1
      subst e2
      exact List.lookup_cons_self
    · have hak : a ≠ k := by
        intro e
        apply nd.1
        rw [e]
        exact List.mem_map.mpr ⟨(k, w), h, rfl⟩
      rw [List.lookup_cons, beq_false_of_ne (Ne.symm hak)]
      exact ih nd.2 h

theorem map_replace_lookup_id {α : Type u} {k : Str} {v : α} {d : List (Str × α)}
    (nd : (d.map Prod.fst).Nodup) (h : List.lookup k d = some v) :
    d.map (fun p => if p.1 = k then (k, v) else p) = d := by
  induction d with
  | nil => rfl
  | cons p rest ih =>
    obtain ⟨a, b⟩ := p
    rw [List.map_cons, List.nodup_cons] at nd
    by_cases ha : a = k
    · subst ha
      rw [List.lookup_cons_self, Option.some.injEq] at h
      rw [List.map_cons, if_pos rfl, h]
      rw [map_replace_id nd.1]
    · rw [List.lookup_cons, beq_false_of_ne (Ne.symm ha)] at h
      rw [List.map_cons, if_neg ha, ih nd.2 h]

theorem dinsert_id {α : Type u} {k : Str} {v : α} {d : List (Str × α)}
    (nd : (d.map Prod.fst).Nodup) (h : List.lookup k d = some v) : dinsert k v d = d := by
  rw [dinsert, if_pos (by rw [h]; rfl)]
  exact map_replace_lookup_id nd h

theorem pySplit_ne_nil {c : Char} {s : Str} : pySplit c s ≠ [] := by
  cases s with
  | nil => exact fun h => List.noConfusion h
  | cons x xs =>
    rw [pySplit]
    by_cases hx : x = c
    · rw [if_pos hx]
      exact fun h => List.noConfusion h
    · rw [if_neg hx]
      rcases he : pySplit c xs with _ | ⟨h, t⟩
      · exact fun h => List.noConfusion h
      · exact fun h => List.noConfusion h

theorem pySplit_sepFree {c : Char} {k : Str} (h : c ∉ k) : pySplit c k = [k] := by
  induction k with
  | nil => rfl
  | cons x xs ih =>
    rw [List.mem_cons, not_or] at h
    rw [pySplit, if_neg (fun e => h.1 e.symm), ih h.2]

theorem pySplit_append {c : Char} {k s : Str} (h : c ∉ k) :
    pySplit c (k ++ c :: s) = k :: pySplit c s := by
  induction k with
  | nil =>
    rw [List.nil_append, pySplit, if_pos rfl]
  | cons x xs ih =>
    rw [List.mem_cons, not_or] at h
    rw [List.cons_append, pySplit, if_neg (fun e => h.1 e.symm), ih h.2]

theorem joinP_cons {c : Char} {k : Str} {p : List Str} (h : p ≠ []) :
    joinP c (k :: p) = k ++ c :: joinP c p := by
  cases p with
  | nil => exact absurd rfl h
  | cons a l => rfl

theorem joinP_split {c : Char} {p : List Str} (hne : p ≠ [])
    (hfree : ∀ x ∈ p, c ∉ x) : pySplit c (joinP c p) = p := by
  induction p with
  | nil => exact absurd rfl hne
  | cons k rest ih =>
    cases rest with
    | nil =>
      rw [joinP]
      exact pySplit_sepFree (hfree k (List.mem_cons_self k []))
    | cons a l =>
      rw [joinP_cons (List.cons_ne_nil _ _)]
      rw [pySplit_append (hfree k (List.mem_cons_self k _))]
      rw [ih (List.cons_ne_nil _ _) (fun x hx => hfree x (List.mem_cons_of_mem k hx))]

theorem sep_takeout {c : Char} {a b x y : Str} (ha : c ∉ a) (hb : c ∉ b)
    (h : a ++ c :: x = b ++ c :: y) : a = b ∧ x = y := by
  induction a generalizing b with
  | nil =>
    cases b with
    | nil =>
      rw [List.nil_append, List.nil_append] at h
      injection h with _ h2
      exact ⟨rfl, h2⟩
    | cons b0 bs =>
      rw [List.nil_append, List.cons_append] at h
      injection h with h1 _
      rw [List.mem_cons, not_or] at hb
      exact absurd h1 hb.1
  | cons a0 as ih =>
    cases b with
    | nil =>
      rw [List.cons_append, List.nil_append] at h
      injection h with h1 _
      rw [List.mem_cons, not_or] at ha
      exact absurd h1.symm ha.1
    | cons b0 bs =>
      rw [List.cons_append, List.cons_append] at h
      injection h with h1 h2
      rw [List.mem_cons, not_or] at ha hb
      obtain ⟨e1, e2⟩ := ih ha.2 hb.2 h2
      exact ⟨by rw [h1, e1], e2⟩

theorem joinP_head_ne {c : Char} {h k : Str} {t p : List Str} (hne : h ≠ k)
    (hh : c ∉ h) (hk : c ∉ k) : joinP c (h :: t) ≠ joinP c (k :: p) := by
  cases t with
  | nil =>
    cases p with
    | nil => exact fun e => hne e
    | cons p0 ps =>
      rw [joinP, joinP_cons (List.cons_ne_nil _ _)]
      intro e
      exact hh (e ▸ List.mem_append_right k (List.mem_cons_self c _))
  | cons t0 ts =>
    cases p with
    | nil =>
      rw [joinP, joinP_cons (List.cons_ne_nil _ _)]
      intro e
      exact hk (e ▸ List.mem_append_right h (List.mem_cons_self c _))
    | cons p0 ps =>
      rw [joinP_cons (List.cons_ne_nil _ _), joinP_cons (List.cons_ne_nil _ _)]
      intro e
      exact hne (sep_takeout hh hk e).1

theorem dictWF_leaf_iff {c : Char} {k : Str} {v : PyVal} {rest : Dict} :
    dictWF c ((k, Entry.leaf v) :: rest) = true ↔
      c ∉ k ∧ (∀ p ∈ rest, p.1 ≠ k) ∧ dictWF c rest = true := by
  rw [dictWF]
  simp
  tauto

theorem dictWF_sub_iff {c : Char} {k : Str} {s rest : Dict} :
    dictWF c ((k, Entry.sub s) :: rest) = true ↔
      c ∉ k ∧ (∀ p ∈ rest, p.1 ≠ k) ∧ s ≠ [] ∧ dictWF c s = true ∧ dictWF c rest = true := by
  rw [dictWF]
  simp [List.isEmpty_iff]
  tauto

theorem pathsOf_spec {c : Char} : ∀ {m : Dict}, dictWF c m = true →
    ∀ pv ∈ pathsOf m, ∃ h t, pv.1 = h :: t ∧ h ∈ m.map Prod.fst ∧ ∀ x ∈ pv.1, c ∉ x := by
  intro m
  induction m using dictInd with
  | h1 =>
    intro _ pv hpv
    rw [pathsOf] at hpv
    exact absurd hpv (List.not_mem_nil pv)
  | h2 k v rest ih =>
    intro hwf pv hpv
    obtain ⟨hk, _, hrest⟩ := dictWF_leaf_iff.mp hwf
    rw [pathsOf] at hpv
    rcases List.mem_cons.mp hpv with hpv | hpv
    · subst hpv
      refine ⟨k, [], rfl, List.mem_cons_self _ _, ?_⟩
      intro x hx
      rcases List.mem_cons.mp hx with hx | hx
      · exact hx ▸ hk
      · exact absurd hx (List.not_mem_nil x)
    · obtain ⟨h, t, e, hm, hfree⟩ := ih hrest pv hpv
      exact ⟨h, t, e, List.mem_cons_of_mem _ hm, hfree⟩
  | h3 k s rest ihs ihrest =>
    intro hwf pv hpv
    obtain ⟨hk, _, _, hs, hrest⟩ := dictWF_sub_iff.mp hwf
    rw [pathsOf] at hpv
    rcases List.mem_append.mp hpv with hpv | hpv
    · obtain ⟨qv, hqv, e⟩ := List.mem_map.mp hpv
      obtain ⟨h, t, e', _, hfree⟩ := ihs hs qv hqv
      refine ⟨k, qv.1, ?_, List.mem_cons_self _ _, ?_⟩
      · rw [← e]
      · intro x hx
        rw [← e] at hx
        rcases List.mem_cons.mp hx with hx | hx
        · exact hx ▸ hk
        · exact hfree x hx
    · obtain ⟨h, t, e, hm, hfree⟩ := ihrest hrest pv hpv
      exact ⟨h, t, e, List.mem_cons_of_mem _ hm, hfree⟩

theorem pathsOf_ne_nil {c : Char} : ∀ {m : Dict}, dictWF c m = true → m ≠ [] →
    pathsOf m ≠ [] := by
  intro m
  induction m using dictInd with
  | h1 => exact fun _ h => absurd rfl h
  | h2 k v rest _ =>
    intro _ _
    rw [pathsOf]
    exact List.cons_ne_nil _ _
  | h3 k s rest ihs _ =>
    intro hwf _
    obtain ⟨_, _, hsne, hs, _⟩ := dictWF_sub_iff.mp hwf
    rw [pathsOf]
    intro he
    rcases List.append_eq_nil.mp he with ⟨e1, _⟩
    exact ihs hs hsne (List.map_eq_nil_iff.mp e1)

theorem joined_ne_of_keyne {c : Char} {k : Str} {rest : Dict} {q : List Str × PyVal}
    (hk : c ∉ k) (hwf : dictWF c rest = true) (hne : ∀ p ∈ rest, p.1 ≠ k)
    (hq : q ∈ pathsOf rest) : joinP c (k :: []) ≠ joinP c q.1 := by
  obtain ⟨h, t, e, hm, hfree⟩ := pathsOf_spec hwf q hq
  obtain ⟨p, hp, hph⟩ := List.mem_map.mp hm
  have hhk : k ≠ h := fun ee => (hne p hp) (by rw [hph, ← ee])
  rw [e]
  exact joinP_head_ne hhk hk (by
    apply hfree
    rw [e]
    exact List.mem_cons_self _ _)

theorem pathsOf_joined_nodup {c : Char} : ∀ {m : Dict}, dictWF c m = true →
    ((pathsOf m).map (fun pv => joinP c pv.1)).Nodup := by
  intro m
  induction m using dictInd with
  | h1 =>
    intro _
    rw [pathsOf, List.map_nil]
    exact List.nodup_nil
  | h2 k v rest ih =>
    intro hwf
    obtain ⟨hk, hne, hrest⟩ := dictWF_leaf_iff.mp hwf
    rw [pathsOf, List.map_cons, List.nodup_cons]
    constructor
    · intro hmem
      obtain ⟨q, hq, he⟩ := List.mem_map.mp hmem
      exact joined_ne_of_keyne hk hrest hne hq he.symm
    · exact ih hrest
  | h3 k s rest ihs ihrest =>
    intro hwf
    obtain ⟨hk, hne, hsne, hs, hrest⟩ := dictWF_sub_iff.mp hwf
    rw [pathsOf, List.map_append, List.map_map]
    have hleft : ((pathsOf s).map ((fun pv => joinP c pv.1) ∘ fun pv => (k :: pv.1, pv.2)))
        = ((pathsOf s).map (fun pv => joinP c pv.1)).map (fun j => k ++ c :: j) := by
      rw [List.map_map]
      apply List.map_congr_left
      intro q hq
      obtain ⟨h, t, e, _, _⟩ := pathsOf_spec hs q hq
      simp only [Function.comp_apply]
      apply joinP_cons
      rw [e]
      exact List.cons_ne_nil _ _
    rw [hleft, List.nodup_append]
    refine ⟨List.Nodup.map ?_ (ihs hs), ihrest hrest, ?_⟩
    · intro a b he
      exact (List.cons.inj (List.append_cancel_left he)).2
    · intro j hj
      obtain ⟨j0, hj0, he0⟩ := List.mem_map.mp hj
      obtain ⟨q, hq, he1⟩ := List.mem_map.mp hj0
      intro hj2
      obtain ⟨q', hq', he2⟩ := List.mem_map.mp hj2
      obtain ⟨h, t, e, _, hfree⟩ := pathsOf_spec hs q hq
      obtain ⟨h', t', e', hm', hfree'⟩ := pathsOf_spec hrest q' hq'
      obtain ⟨p, hp, hph⟩ := List.mem_map.mp hm'
      have hkh : k ≠ h' := fun ee => (hne p hp) (by rw [hph, ← ee])
      have hch' : c ∉ h' := by
        apply hfree'
        rw [e']
        exact List.mem_cons_self _ _
      have heq : joinP c (k :: q.1) = joinP c (h' :: t') := by
        rw [joinP_cons (by rw [e]; exact List.cons_ne_nil _ _), he1, he0, ← e', he2]
      exact joinP_head_ne hkh hk hch' heq

theorem joined_prefix_ne_rest {c : Char} {k : Str} {s rest : Dict} (hk : c ∉ k)
    (hs : dictWF c s = true) (hrest : dictWF c rest = true)
    (hne : ∀ p ∈ rest, p.1 ≠ k) {q q' : List Str × PyVal}
    (hq : q ∈ pathsOf s) (hq' : q' ∈ pathsOf rest) :
    joinP c (k :: q.1) ≠ joinP c q'.1 := by
  obtain ⟨h, t, e, _, _⟩ := pathsOf_spec hs q hq
  obtain ⟨h', t', e', hm', hfree'⟩ := pathsOf_spec hrest q' hq'
  obtain ⟨p, hp, hph⟩ := List.mem_map.mp hm'
  have hkh : k ≠ h' := fun ee => (hne p hp) (by rw [hph, ← ee])
  have hch' : c ∉ h' := by
    apply hfree'
    rw [e']
    exact List.mem_cons_self _ _
  rw [e']
  exact joinP_head_ne hkh hk hch'

theorem updAll_append_eq {α : Type u} : ∀ {new out : List (Str × α)},
    (new.map Prod.fst).Nodup → (∀ k ∈ new.map Prod.fst, k ∉ out.map Prod.fst) →
    updAll new out = out ++ new := by
  intro new
  induction new with
  | nil =>
    intro out _ _
    rw [updAll, List.foldl_nil, List.append_nil]
  | cons p rest ih =>
    intro out nd hdisj
    obtain ⟨k, v⟩ := p
    rw [List.map_cons, List.nodup_cons] at nd
    have hkfresh : k ∉ out.map Prod.fst := hdisj k (by rw [List.map_cons]; exact List.mem_cons_self _ _)
    rw [updAll, List.foldl_cons]
    have e1 : dinsert k v out = out ++ [(k, v)] := dinsert_fresh hkfresh
    rw [show (List.foldl (fun o kv => dinsert kv.1 kv.2 o) (dinsert k v out) rest)
        = updAll rest (dinsert k v out) from rfl]
    rw [e1, ih nd.2]
    · rw [List.append_assoc]
      rfl
    · intro k' hk'
      rw [List.map_append, List.mem_append, not_or]
      constructor
      · exact hdisj k' (by rw [List.map_cons]; exact List.mem_cons_of_mem _ hk')
      · intro hc
        rcases List.mem_cons.mp hc with hc | hc
        · exact nd.1 (hc ▸ hk')
        · exact absurd hc (List.not_mem_nil k')

theorem flattenAux_spec {c : Char} : ∀ {m : Dict}, dictWF c m = true →
    ∀ {out : List (Str × PyVal)},
    (∀ q ∈ (pathsOf m).map (fun pv => joinP c pv.1), q ∉ out.map Prod.fst) →
    flattenAux c m out = out ++ (pathsOf m).map (fun pv => (joinP c pv.1, pv.2)) := by
  intro m
  induction m using dictInd with
  | h1 =>
    intro _ out _
    rw [flattenAux, pathsOf, List.map_nil, List.append_nil]
  | h2 k v rest ih =>
    intro hwf out hdisj
    obtain ⟨hk, hne, hrest⟩ := dictWF_leaf_iff.mp hwf
    have hkey : ∀ q ∈ (pathsOf ((k, Entry.leaf v) :: rest)).map (fun pv => joinP c pv.1),
        q = k ∨ q ∈ (pathsOf rest).map (fun pv => joinP c pv.1) := by
      intro q hq
      rw [pathsOf, List.map_cons] at hq
      rcases List.mem_cons.mp hq with hq | hq
      · exact Or.inl hq
      · exact Or.inr hq
    have hkfresh : k ∉ out.map Prod.fst := by
      apply hdisj k
      rw [pathsOf, List.map_cons]
      exact List.mem_cons_self _ _
    rw [flattenAux, dinsert_fresh hkfresh, ih hrest]
    · rw [pathsOf, List.map_cons, List.append_assoc]
      rfl
    · intro q hq
      rw [List.map_append, List.mem_append, not_or]
      refine ⟨?_, ?_⟩
      · apply hdisj q
        rw [pathsOf, List.map_cons]
        exact List.mem_cons_of_mem _ hq
      · intro hc
        rcases List.mem_cons.mp hc with hc | hc
        · obtain ⟨q0, hq0, he0⟩ := List.mem_map.mp hq
          exact joined_ne_of_keyne hk hrest hne hq0 (by rw [he0, hc]; rfl)
        · exact absurd hc (List.not_mem_nil q)
  | h3 k s rest ihs ihrest =>
    intro hwf out hdisj
    obtain ⟨hk, hne, hsne, hs, hrest⟩ := dictWF_sub_iff.mp hwf
    have hflat : flattenAux c s [] = (pathsOf s).map (fun pv => (joinP c pv.1, pv.2)) := by
      rw [ihs hs]
      · rw [List.nil_append]
      · intro q _
        rw [List.map_nil]
        exact List.not_mem_nil q
    have hnewl : (flattenAux c s []).map (fun kv => (k ++ c :: kv.1, kv.2))
        = (pathsOf s).map (fun pv => (joinP c (k :: pv.1), pv.2)) := by
      rw [hflat, List.map_map]
      apply List.map_congr_left
      intro q hq
      obtain ⟨h, t, e, _, _⟩ := pathsOf_spec hs q hq
      simp only [Function.comp_apply]
      rw [joinP_cons (by rw [e]; exact List.cons_ne_nil _ _)]
    have hnewkeys : ((pathsOf s).map (fun pv => (joinP c (k :: pv.1), pv.2))).map Prod.fst
        = ((pathsOf s).map (fun pv => joinP c pv.1)).map (fun j => k ++ c :: j) := by
      rw [List.map_map, List.map_map]
      apply List.map_congr_left
      intro q hq
      obtain ⟨h, t, e, _, _⟩ := pathsOf_spec hs q hq
      simp only [Function.comp_apply]
      rw [joinP_cons (by rw [e]; exact List.cons_ne_nil _ _)]
    have hprefixmem : ∀ q ∈ (pathsOf s).map (fun pv => joinP c (k :: pv.1)),
        q ∈ (pathsOf ((k, Entry.sub s) :: rest)).map (fun pv => joinP c pv.1) := by
      intro q hq
      obtain ⟨q0, hq0, he0⟩ := List.mem_map.mp hq
      rw [pathsOf, List.map_append, List.mem_append]
      left
      rw [List.map_map]
      apply List.mem_map.mpr
      exact ⟨q0, hq0, he0⟩
    rw [flattenAux, hnewl, updAll_append_eq, ihrest hrest]
    · rw [pathsOf, List.map_append, List.map_map, List.append_assoc]
      have : ((pathsOf s).map ((fun pv => (joinP c pv.1, pv.2)) ∘ fun pv => (k :: pv.1, pv.2)))
          = (pathsOf s).map (fun pv => (joinP c (k :: pv.1), pv.2)) := rfl
      rw [this]
    · intro q hq
      rw [List.map_append, List.mem_append, not_or]
      constructor
      · apply hdisj q
        rw [pathsOf, List.map_append, List.mem_append]
        right
        exact hq
      · rw [hnewkeys]
        intro hc
        obtain ⟨j0, hj0, he0⟩ := List.mem_map.mp hc
        obtain ⟨q0, hq0, he1⟩ := List.mem_map.mp hj0
        obtain ⟨q', hq', he2⟩ := List.mem_map.mp hq
        apply joined_prefix_ne_rest hk hs hrest hne hq0 hq'
        rw [joinP_cons, he1, he0, he2]
        obtain ⟨h, t, e, _, _⟩ := pathsOf_spec hs q0 hq0
        rw [e]
        exact List.cons_ne_nil _ _
    · rw [hnewkeys]
      apply List.Nodup.map
      · intro a b he
        exact (List.cons.inj (List.append_cancel_left he)).2
      · exact pathsOf_joined_nodup hs
    · intro q hq
      rw [hnewkeys] at hq
      obtain ⟨j0, hj0, he0⟩ := List.mem_map.mp hq
      obtain ⟨q0, hq0, he1⟩ := List.mem_map.mp hj0
      apply hdisj q
      apply hprefixmem
      apply List.mem_map.mpr
      refine ⟨q0, hq0, ?_⟩
      obtain ⟨h, t, e, _, _⟩ := pathsOf_spec hs q0 hq0
      rw [joinP_cons (by rw [e]; exact List.cons_ne_nil _ _), he1, he0]

theorem flatten_eq_joined {c : Char} {m : Dict} (hwf : dictWF c m = true) :
    flatten_dict c m = (pathsOf m).map (fun pv => (joinP c pv.1, pv.2)) := by
  rw [flatten_dict, flattenAux_spec hwf, List.nil_append]
  intro q _
  rw [List.map_nil]
  exact List.not_mem_nil q

theorem insert_rec_single {root : Dict} {k : Str} {value : PyVal} :
    insert_rec root [k] value = some (dinsert k (.leaf value) root) := by
  simp [insert_rec]

theorem insert_rec_cons_none {root : Dict} {k a : Str} {t : List Str} {value : PyVal}
    (hl : List.lookup k root = none) :
    insert_rec root (k :: a :: t) value
      = (insert_rec [] (a :: t) value).map (fun r => dinsert k (.sub r) root) := by
  rw [insert_rec, hl]
  exact fun h => List.noConfusion h

theorem insert_rec_cons_sub {root : Dict} {k a : Str} {t : List Str} {value : PyVal}
    {d : Dict} (hl : List.lookup k root = some (.sub d)) :
    insert_rec root (k :: a :: t) value
      = (insert_rec d (a :: t) value).map (fun r => dinsert k (.sub r) root) := by
  rw [insert_rec, hl]
  exact fun h => List.noConfusion h

theorem insert_rec_chain : ∀ {p : List Str}, p ≠ [] → ∀ {v : PyVal},
    insert_rec [] p v = some (chainP p v) := by
  intro p
  induction p with
  | nil => exact fun h => absurd rfl h
  | cons k rest ih =>
    intro _ v
    cases rest with
    | nil =>
      rw [insert_rec_single, chainP]
      rfl
    | cons a t =>
      rw [insert_rec_cons_none (show List.lookup k ([] : Dict) = none from rfl),
        ih (List.cons_ne_nil _ _), Option.map_some', chainP]
      rfl

theorem insertAll_cons_some {root root' : Dict} {p : List Str} {v : PyVal}
    {rest : List (List Str × PyVal)} (he : insert_rec root p v = some root') :
    insertAll root ((p, v) :: rest) = insertAll root' rest := by
  rw [insertAll, he]

theorem insertAll_cons_none {root : Dict} {p : List Str} {v : PyVal}
    {rest : List (List Str × PyVal)} (he : insert_rec root p v = none) :
    insertAll root ((p, v) :: rest) = none := by
  rw [insertAll, he]

theorem insertAll_append {root : Dict} {xs ys : List (List Str × PyVal)} :
    insertAll root (xs ++ ys) = (insertAll root xs).bind (fun r => insertAll r ys) := by
  induction xs generalizing root with
  | nil => rfl
  | cons pv rest ih =>
    obtain ⟨p, v⟩ := pv
    rw [List.cons_append]
    cases he : insert_rec root p v with
    | none => rw [insertAll_cons_none he, insertAll_cons_none he]; rfl
    | some root' => rw [insertAll_cons_some he, insertAll_cons_some he, ih]

theorem insertAll_prefixed_sub : ∀ {items : List (List Str × PyVal)} {root : Dict}
    {k : Str} {t : Dict}, (∀ pv ∈ items, pv.1 ≠ []) →
    List.lookup k root = some (.sub t) → (root.map Prod.fst).Nodup →
    insertAll root (items.map (fun pv => (k :: pv.1, pv.2)))
      = (insertAll t items).map (fun r => dinsert k (.sub r) root) := by
  intro items
  induction items with
  | nil =>
    intro root k t _ hl nd
    rw [List.map_nil, insertAll, insertAll, Option.map_some']
    rw [dinsert_id nd hl]
  | cons pv rest ih =>
    intro root k t hne hl nd
    obtain ⟨p, v⟩ := pv
    have hp : p ≠ [] := hne (p, v) (List.mem_cons_self _ _)
    cases p with
    | nil => exact absurd rfl hp
    | cons a t' =>
      rw [List.map_cons]
      cases he : insert_rec t (a :: t') v with
      | none =>
        have hstep : insert_rec root (k :: a :: t') v = none := by
          rw [insert_rec_cons_sub hl, he]
          rfl
        rw [insertAll_cons_none hstep, insertAll_cons_none he]
        rfl
      | some r' =>
        have hstep : insert_rec root (k :: a :: t') v
            = some (dinsert k (Entry.sub r') root) := by
          rw [insert_rec_cons_sub hl, he, Option.map_some']
        rw [insertAll_cons_some hstep, insertAll_cons_some he]
        have hl' : List.lookup k (dinsert k (Entry.sub r') root) = some (Entry.sub r') :=
          lookup_dinsert_self
        have nd' : ((dinsert k (Entry.sub r') root).map Prod.fst).Nodup := by
          rw [dinsert_keys_of_mem (lookup_isSome.mp (by rw [hl]; rfl))]
          exact nd
        rw [ih (fun q hq => hne q (List.mem_cons_of_mem _ hq)) hl' nd']
        cases insertAll r' rest with
        | none => rfl
        | some rfin =>
          rw [Option.map_some', Option.map_some', dinsert_dinsert]

theorem insertAll_prefixed_new : ∀ {items : List (List Str × PyVal)} {root : Dict}
    {k : Str}, items ≠ [] → (∀ pv ∈ items, pv.1 ≠ []) →
    List.lookup k root = none → (root.map Prod.fst).Nodup →
    insertAll root (items.map (fun pv => (k :: pv.1, pv.2)))
      = (insertAll [] items).map (fun r => root ++ [(k, Entry.sub r)]) := by
  intro items root k hitems hne hl nd
  have hkfresh : k ∉ root.map Prod.fst := lookup_eq_none.mp hl
  cases items with
  | nil => exact absurd rfl hitems
  | cons pv rest =>
    obtain ⟨p, v⟩ := pv
    have hp : p ≠ [] := hne (p, v) (List.mem_cons_self _ _)
    cases p with
    | nil => exact absurd rfl hp
    | cons a t' =>
      rw [List.map_cons]
      have hstep : insert_rec root (k :: a :: t') v
          = some (root ++ [(k, Entry.sub (chainP (a :: t') v))]) := by
        rw [insert_rec_cons_none hl, insert_rec_chain (List.cons_ne_nil _ _),
          Option.map_some', dinsert_fresh hkfresh]
      have hstep0 : insert_rec ([] : Dict) (a :: t') v = some (chainP (a :: t') v) :=
        insert_rec_chain (List.cons_ne_nil _ _)
      rw [insertAll_cons_some hstep, insertAll_cons_some hstep0]
      have hl' : List.lookup k (root ++ [(k, Entry.sub (chainP (a :: t') v))])
          = some (Entry.sub (chainP (a :: t') v)) := by
        rw [lookup_append_right hkfresh, List.lookup_cons_self]
      have nd' : ((root ++ [(k, Entry.sub (chainP (a :: t') v))]).map Prod.fst).Nodup := by
        rw [List.map_append, List.nodup_append]
        refine ⟨nd, List.nodup_singleton k, ?_⟩
        intro x hx hc
        rcases List.mem_cons.mp hc with hc | hc
        · have hxk : x = k := hc
          exact hkfresh (hxk ▸ hx)
        · exact absurd hc (List.not_mem_nil x)
      rw [insertAll_prefixed_sub (fun q hq => hne q (List.mem_cons_of_mem _ hq)) hl' nd']
      cases insertAll (chainP (a :: t') v) rest with
      | none => rfl
      | some rfin =>
        rw [Option.map_some', Option.map_some', dinsert_snoc hkfresh]

theorem insertAll_pathsOf {c : Char} : ∀ {s : Dict}, dictWF c s = true →
    ∀ {d : Dict}, (∀ k ∈ s.map Prod.fst, k ∉ d.map Prod.fst) →
    (d.map Prod.fst).Nodup → insertAll d (pathsOf s) = some (d ++ s) := by
  intro s
  induction s using dictInd with
  | h1 =>
    intro _ d _ _
    rw [pathsOf, insertAll, List.append_nil]
  | h2 k v rest ih =>
    intro hwf d hdisj nd
    obtain ⟨hk, hne, hrest⟩ := dictWF_leaf_iff.mp hwf
    have hkfresh : k ∉ d.map Prod.fst :=
      hdisj k (by rw [List.map_cons]; exact List.mem_cons_self _ _)
    have hstep : insert_rec d [k] v = some (d ++ [(k, Entry.leaf v)]) := by
      rw [insert_rec_single, dinsert_fresh hkfresh]
    rw [pathsOf, insertAll_cons_some hstep]
    have hdisj' : ∀ q ∈ rest.map Prod.fst, q ∉ (d ++ [(k, Entry.leaf v)]).map Prod.fst := by
      intro q hq
      rw [List.map_append, List.mem_append, not_or]
      constructor
      · exact hdisj q (by rw [List.map_cons]; exact List.mem_cons_of_mem _ hq)
      · intro hc
        rcases List.mem_cons.mp hc with hc | hc
        · obtain ⟨pq, hpq, hpqe⟩ := List.mem_map.mp hq
          have hqk : q = k := hc
          exact hne pq hpq (by rw [hpqe, hqk])
        · exact absurd hc (List.not_mem_nil q)
    have nd' : ((d ++ [(k, Entry.leaf v)]).map Prod.fst).Nodup := by
      rw [List.map_append, List.nodup_append]
      refine ⟨nd, List.nodup_singleton k, ?_⟩
      intro x hx hc
      rcases List.mem_cons.mp hc with hc | hc
      · have hxk : x = k := hc
        exact hkfresh (hxk ▸ hx)
      · exact absurd hc (List.not_mem_nil x)
    rw [ih hrest hdisj' nd', List.append_assoc]
    rfl
  | h3 k s' rest ihs ihrest =>
    intro hwf d hdisj nd
    obtain ⟨hk, hne, hsne, hs, hrest⟩ := dictWF_sub_iff.mp hwf
    have hkfresh : k ∉ d.map Prod.fst :=
      hdisj k (by rw [List.map_cons]; exact List.mem_cons_self _ _)
    rw [pathsOf, insertAll_append]
    have hitems : pathsOf s' ≠ [] := pathsOf_ne_nil hs hsne
    have hpne : ∀ pv ∈ pathsOf s', pv.1 ≠ [] := by
      intro pv hpv
      obtain ⟨h, t, e, _, _⟩ := pathsOf_spec hs pv hpv
      rw [e]
      exact List.cons_ne_nil _ _
    rw [insertAll_prefixed_new hitems hpne (lookup_eq_none.mpr hkfresh) nd]
    have hs'build : insertAll [] (pathsOf s') = some s' := by
      rw [ihs hs (fun q _ => by rw [List.map_nil]; exact List.not_mem_nil q) (by rw [List.map_nil]; exact List.nodup_nil),
        List.nil_append]
    rw [hs'build, Option.map_some', Option.some_bind]
    have hdisj' : ∀ q ∈ rest.map Prod.fst, q ∉ (d ++ [(k, Entry.sub s')]).map Prod.fst := by
      intro q hq
      rw [List.map_append, List.mem_append, not_or]
      constructor
      · exact hdisj q (by rw [List.map_cons]; exact List.mem_cons_of_mem _ hq)
      · intro hc
        rcases List.mem_cons.mp hc with hc | hc
        · obtain ⟨pq, hpq, hpqe⟩ := List.mem_map.mp hq
          have hqk : q = k := hc
          exact hne pq hpq (by rw [hpqe, hqk])
        · exact absurd hc (List.not_mem_nil q)
    have nd' : ((d ++ [(k, Entry.sub s')]).map Prod.fst).Nodup := by
      rw [List.map_append, List.nodup_append]
      refine ⟨nd, List.nodup_singleton k, ?_⟩
      intro x hx hc
      rcases List.mem_cons.mp hc with hc | hc
      · have hxk : x = k := hc
        exact hkfresh (hxk ▸ hx)
      · exact absurd hc (List.not_mem_nil x)
    rw [ihrest hrest hdisj' nd', List.append_assoc]
    rfl

theorem unflatten_flatten_wf {c : Char} {m : Dict} (hwf : dictWF c m = true) :
    unflatten_dict c (flatten_dict c m) = some m := by
  rw [unflatten_dict, flatten_eq_joined hwf, List.map_map]
  have hmaps : (pathsOf m).map ((fun kv => (pySplit c kv.1, kv.2)) ∘
      (fun pv => (joinP c pv.1, pv.2))) = (pathsOf m).map id := by
    apply List.map_congr_left
    intro pv hpv
    obtain ⟨h, t, e, _, hfree⟩ := pathsOf_spec hwf pv hpv
    simp only [Function.comp_apply, id]
    rw [joinP_split (by rw [e]; exact List.cons_ne_nil _ _) hfree]
  rw [hmaps, List.map_id]
  rw [insertAll_pathsOf hwf (fun q _ => by rw [List.map_nil]; exact List.not_mem_nil q)
    (by rw [List.map_nil]; exact List.nodup_nil), List.nil_append]

theorem flattenAux_drop_empty {c : Char} : ∀ {m1 : Dict} {k : Str} {m2 : Dict}
    {out : List (Str × PyVal)},
    flattenAux c (m1 ++ (k, Entry.sub []) :: m2) out = flattenAux c (m1 ++ m2) out := by
  intro m1
  induction m1 with
  | nil =>
    intro k m2 out
    rw [List.nil_append, List.nil_append, flattenAux, flattenAux]
    rfl
  | cons p rest ih =>
    intro k m2 out
    obtain ⟨k0, e0⟩ := p
    cases e0 with
    | leaf v =>
      rw [List.cons_append, List.cons_append, flattenAux, flattenAux, ih]
    | sub s =>
      rw [List.cons_append, List.cons_append, flattenAux, flattenAux, ih]

/-- C10: flatten_dict silently drops every entry whose value is an empty
mapping, and therefore the flatten/unflatten round-trip maps a mapping that
contains an empty sub-mapping to a strictly smaller mapping: for
`m = [("a", {})]` the round-trip yields the empty mapping, not `m`. -/
theorem C10_flatten_drops_empty :
    (∀ (c : Char) (m1 m2 : Dict) (k : Str),
      flatten_dict c (m1 ++ (k, Entry.sub []) :: m2) = flatten_dict c (m1 ++ m2)) ∧
    flatten_dict '/' [(['a'], Entry.sub [])] = [] ∧
    unflatten_dict '/' (flatten_dict '/' [(['a'], Entry.sub [])]) = some [] ∧
    ([] : Dict) ≠ [(['a'], Entry.sub [])] := by
  refine ⟨?_, ?_, ?_, ?_⟩
  · intro c m1 m2 k
    rw [flatten_dict, flatten_dict, flattenAux_drop_empty]
  · simp [flatten_dict, flattenAux, updAll]
  · simp [flatten_dict, flattenAux, updAll, unflatten_dict, insertAll]
  · exact fun h => List.noConfusion h

/-- C2 as stated is refuted by the input `m = {"a.b": {"c": 1}, "d": {}}`
with separator ".": no leaf key of `m` contains the separator (the only
leaf key is "c"), yet the round-trip returns `{"a": {"b": {"c": 1}}}`,
dropping the empty sub-mapping "d" and re-splitting the nested key "a.b". -/
theorem C2_counterexample :
    leafSepFree '.' [(['a', '.', 'b'], Entry.sub [(['c'], Entry.leaf (PyVal.vint 1))]),
      (['d'], Entry.sub [])] = true ∧
    unflatten_dict '.' (flatten_dict '.'
        [(['a', '.', 'b'], Entry.sub [(['c'], Entry.leaf (PyVal.vint 1))]),
          (['d'], Entry.sub [])])
      ≠ some [(['a', '.', 'b'], Entry.sub [(['c'], Entry.leaf (PyVal.vint 1))]),
          (['d'], Entry.sub [])] := by
  constructor
  · simp [leafSepFree]
  · have he : unflatten_dict '.' (flatten_dict '.'
        [(['a', '.', 'b'], Entry.sub [(['c'], Entry.leaf (PyVal.vint 1))]),
          (['d'], Entry.sub [])])
        = some [(['a'], Entry.sub [(['b'], Entry.sub [(['c'], Entry.leaf (PyVal.vint 1))])])] := by
      simp [flatten_dict, flattenAux, updAll, dinsert, unflatten_dict, insertAll,
        insert_rec, pySplit]
    rw [he]
    intro hc
    rw [Option.some.injEq] at hc
    have := List.head_eq_of_cons_eq hc
    exact absurd (congrArg Prod.fst this) (by simp)

/-- C2 (amended): for every nested mapping m and separator character c such
that, at every nesting level, the keys of m are pairwise distinct (as in any
Python dict), no key contains c, and no entry is an empty mapping,
unflatten_dict (flatten_dict m c) c recovers m exactly. The amendment adds
the two conditions the counterexample shows to be necessary: keys of nested
(non-leaf) entries must also be separator-free, and empty sub-mappings must
be excluded. -/
theorem C2_roundtrip (m : Dict) (c : Char) (h : dictWF c m = true) :
    unflatten_dict c (flatten_dict c m) = some m :=
  unflatten_flatten_wf h

/-- Witness for C2_roundtrip at the concrete input {"a": {"b": 1}, "e": "x"}. -/
theorem C2_roundtrip_witness :
    dictWF '.' [(['a'], Entry.sub [(['b'], Entry.leaf (PyVal.vint 1))]),
      (['e'], Entry.leaf (PyVal.vstr ['x']))] = true ∧
    unflatten_dict '.' (flatten_dict '.'
        [(['a'], Entry.sub [(['b'], Entry.leaf (PyVal.vint 1))]),
          (['e'], Entry.leaf (PyVal.vstr ['x']))])
      = some [(['a'], Entry.sub [(['b'], Entry.leaf (PyVal.vint 1))]),
          (['e'], Entry.leaf (PyVal.vstr ['x']))] :=
  ⟨by simp [dictWF], C2_roundtrip _ '.' (by simp [dictWF])⟩

/-- C6: str2bool maps every string whose lower-casing is one of
yes/true/t/y/1 to true, every string whose lower-casing is one of
no/false/f/n/0 to false, and raises the parse error "boolean value
expected" for every other string; concretely "yes","true","T","Y","1"
parse to true, "no","false","F","N","0" to false, and "maybe" errors. -/
theorem C6_str2bool :
    (∀ s : Str,
      (str2bool (.vstr s) = .ok true ↔
        pyLower s ∈ ["yes".toList, "true".toList, "t".toList, "y".toList, "1".toList]) ∧
      (str2bool (.vstr s) = .ok false ↔
        pyLower s ∈ ["no".toList, "false".toList, "f".toList, "n".toList, "0".toList]) ∧
      (str2bool (.vstr s) = .error "boolean value expected".toList ↔
        (pyLower s ∉ ["yes".toList, "true".toList, "t".toList, "y".toList, "1".toList] ∧
         pyLower s ∉ ["no".toList, "false".toList, "f".toList, "n".toList, "0".toList]))) ∧
    str2bool (.vstr "yes".toList) = .ok true ∧
    str2bool (.vstr "true".toList) = .ok true ∧
    str2bool (.vstr "T".toList) = .ok true ∧
    str2bool (.vstr "Y".toList) = .ok true ∧
    str2bool (.vstr "1".toList) = .ok true ∧
    str2bool (.vstr "no".toList) = .ok false ∧
    str2bool (.vstr "false".toList) = .ok false ∧
    str2bool (.vstr "F".toList) = .ok false ∧
    str2bool (.vstr "N".toList) = .ok false ∧
    str2bool (.vstr "0".toList) = .ok false ∧
    str2bool (.vstr "maybe".toList) = .error "boolean value expected".toList := by
  refine ⟨?_, by decide, by decide, by decide, by decide, by decide, by decide, by decide,
    by decide, by decide, by decide, by decide⟩
  intro s
  rw [str2bool]
  by_cases h1 : pyLower s ∈ ["yes".toList, "true".toList, "t".toList, "y".toList, "1".toList]
  · rw [if_pos h1]
    refine ⟨iff_of_true rfl h1, iff_of_false (fun hc => Bool.noConfusion (Except.ok.inj hc)) ?_, iff_of_false (fun hc => Except.noConfusion hc) ?_⟩
    · intro h2
      simp only [List.mem_cons, List.not_mem_nil, or_false] at h1
      rcases h1 with h | h | h | h | h <;> rw [h] at h2 <;>
        revert h2 <;> decide
    · intro hc
      exact hc.1 h1
  · rw [if_neg h1]
    by_cases h2 : pyLower s ∈ ["no".toList, "false".toList, "f".toList, "n".toList, "0".toList]
    · rw [if_pos h2]
      exact ⟨iff_of_false (fun hc => Bool.noConfusion (Except.ok.inj hc)) h1,
        iff_of_true rfl h2, iff_of_false (fun hc => Except.noConfusion hc) (fun hc => hc.2 h2)⟩
    · rw [if_neg h2]
      exact ⟨iff_of_false (fun hc => Except.noConfusion hc) h1,
        iff_of_false (fun hc => Except.noConfusion hc) h2,
        iff_of_true rfl ⟨h1, h2⟩⟩

theorem add_args_eq {parser : List RegOpt} {defaults : List (Str × PyVal)} {pfx : Str} :
    add_args parser defaults pfx = parser ++ defaults.map (mkRegOpt pfx) := by
  induction defaults generalizing parser with
  | nil => rw [add_args, List.foldl_nil, List.map_nil, List.append_nil]
  | cons kv rest ih =>
    rw [add_args, List.foldl_cons, List.map_cons]
    rw [show List.foldl (fun p kv => p ++ [mkRegOpt pfx kv]) (parser ++ [mkRegOpt pfx kv]) rest
      = add_args (parser ++ [mkRegOpt pfx kv]) rest pfx from rfl]
    rw [ih, List.append_assoc]
    rfl

theorem mkRegOpt_helpTy {pfx : Str} {kv : Str × PyVal} :
    (mkRegOpt pfx kv).help =
      (match get_cli_type_string (helpTypeOf kv.2) with
      | none => "Default: `".toList ++ pyStr kv.2 ++ "` (Unknown type)".toList
      | some lbl => "Default: `".toList ++ pyStr kv.2 ++ "`. Type: ".toList ++ lbl) := by
  obtain ⟨k, v⟩ := kv
  cases v <;> rfl

/-- C7: argument registration is total in the default value: every
(name, value) pair of `defaults` produces a registered option (the output
has one option per pair, appended to the parser), the flag is the
dot-joined, "--"-prefixed name, the help string is
"Default: `{value}`. Type: {label}" when the display type has a label and
"Default: `{value}` (Unknown type)" when it has none, and a None default is
registered with string coercion and its display label is "String". -/
theorem C7_add_args (parser : List RegOpt) (defaults : List (Str × PyVal)) (pfx : Str) :
    (add_args parser defaults pfx).length = parser.length + defaults.length ∧
    (∀ k v, (k, v) ∈ defaults →
      ∃ opt ∈ add_args parser defaults pfx,
        opt.flag = (if pfx ≠ [] then ['-', '-'] ++ pfx ++ '.' :: k else ['-', '-'] ++ k) ∧
        opt.default = v ∧
        (∀ lbl, get_cli_type_string (helpTypeOf v) = some lbl →
          opt.help = "Default: `".toList ++ pyStr v ++ "`. Type: ".toList ++ lbl) ∧
        (get_cli_type_string (helpTypeOf v) = none →
          opt.help = "Default: `".toList ++ pyStr v ++ "` (Unknown type)".toList) ∧
        (v = .vnone → opt.ptype = .ofType .tStr ∧
          get_cli_type_string (helpTypeOf v) = some "String".toList)) := by
  constructor
  · rw [add_args_eq, List.length_append, List.length_map]
  · intro k v hkv
    refine ⟨mkRegOpt pfx (k, v), ?_, ?_, ?_, ?_, ?_, ?_⟩
    · rw [add_args_eq, List.mem_append]
      exact Or.inr (List.mem_map_of_mem _ hkv)
    · cases v <;> rfl
    · cases v <;> rfl
    · intro lbl hlbl
      rw [mkRegOpt_helpTy, hlbl]
    · intro hnone
      rw [mkRegOpt_helpTy, hnone]
    · intro hv
      subst hv
      exact ⟨rfl, rfl⟩

theorem intercalate_cons_cons {sep y z : Str} {rest : List Str} :
    List.intercalate sep (y :: z :: rest) = y ++ sep ++ List.intercalate sep (z :: rest) := by
  simp [List.intercalate, List.intersperse]

theorem infix_intercalate {sep x : Str} : ∀ {l : List Str}, x ∈ l →
    x <:+: List.intercalate sep l := by
  intro l
  induction l with
  | nil => exact fun h => absurd h (List.not_mem_nil x)
  | cons y rest ih =>
    intro hm
    rcases List.mem_cons.mp hm with hm | hm
    · subst hm
      cases rest with
      | nil =>
        rw [show List.intercalate sep [x] = x by simp [List.intercalate]]
      | cons z zs =>
        rw [intercalate_cons_cons]
        exact ⟨[], sep ++ List.intercalate sep (z :: zs), by rw [List.nil_append, List.append_assoc]⟩
    · cases rest with
      | nil => exact absurd hm (List.not_mem_nil x)
      | cons z zs =>
        rw [intercalate_cons_cons]
        obtain ⟨s, t, he⟩ := ih hm
        exact ⟨y ++ sep ++ s, t, by rw [← he]; simp [List.append_assoc]⟩

theorem infix_append_of_infix {x m h : Str} (hi : x <:+: m) : x <:+: h ++ m := by
  obtain ⟨s, t, he⟩ := hi
  exact ⟨h ++ s, t, by rw [← he]; simp [List.append_assoc]⟩

theorem sig_foldl_spec : ∀ (ps : List (Str × Option PyVal))
    (acc : List (Str × PyVal) × List Str),
    ps.foldl (fun acc kv =>
      if kv.1 = "self".toList then acc
      else
        match kv.2 with
        | none => (acc.1, acc.2 ++ [kv.1])
        | some d => (acc.1 ++ [(kv.1, d)], acc.2)) acc
      = (acc.1 ++ givenOf ps, acc.2 ++ missingOf ps) := by
  intro ps
  induction ps with
  | nil =>
    intro acc
    rw [List.foldl_nil, givenOf, missingOf, List.filter_nil, List.filter_nil,
      List.map_nil, List.map_nil, List.append_nil, List.append_nil]
  | cons kv rest ih =>
    intro acc
    obtain ⟨name, dflt⟩ := kv
    rw [List.foldl_cons]
    by_cases hself : name = "self".toList
    · rw [if_pos hself, ih]
      have h1 : givenOf ((name, dflt) :: rest) = givenOf rest := by
        rw [givenOf, givenOf, List.filter_cons_of_neg]
        simp [hself]
      have h2 : missingOf ((name, dflt) :: rest) = missingOf rest := by
        rw [missingOf, missingOf, List.filter_cons_of_neg]
        simp [hself]
      rw [h1, h2]
    · rw [if_neg hself]
      cases dflt with
      | none =>
        have h1 : givenOf ((name, none) :: rest) = givenOf rest := by
          rw [givenOf, givenOf, List.filter_cons_of_neg]
          simp
        have h2 : missingOf ((name, none) :: rest) = name :: missingOf rest := by
          rw [missingOf, missingOf, List.filter_cons_of_pos]
          · rw [List.map_cons]
          · simp
            exact fun e => hself e
        rw [ih, h1, h2, List.append_assoc]
        rfl
      | some d =>
        have h1 : givenOf ((name, some d) :: rest) = (name, d) :: givenOf rest := by
          rw [givenOf, givenOf, List.filter_cons_of_pos]
          · rw [List.map_cons]
            rfl
          · simp
            exact fun e => hself e
        have h2 : missingOf ((name, some d) :: rest) = missingOf rest := by
          rw [missingOf, missingOf, List.filter_cons_of_neg]
          simp
        rw [ih, h1, h2, List.append_assoc]
        rfl

theorem get_default_from_signature_eq (ps : List (Str × Option PyVal)) :
    get_default_from_signature ps =
      if missingOf ps ≠ [] then .error (missingDefaultsMsg (missingOf ps))
      else .ok (givenOf ps) := by
  rw [get_default_from_signature]
  simp only [sig_foldl_spec ps ([], []), List.nil_append]
  rcases he : missingOf ps with _ | ⟨m, ms⟩
  · rw [if_neg (by rw [List.length_nil]; exact Nat.lt_irrefl 0), if_neg (by simp)]
  · rw [if_pos (by rw [List.length_cons]; exact Nat.succ_pos _), if_pos (by simp)]

/-- C4 as stated is refuted: `get_default_args` does not return a plain
mapping unchanged; a dict input falls into the rejection branch, so the
result is an error, not the mapping. -/
theorem C4_counterexample :
    get_default_args (.mapping [(['a'], PyVal.vint 1)]) ≠ .ok [(['a'], PyVal.vint 1)] := by
  intro h
  rw [show get_default_args (.mapping [(['a'], PyVal.vint 1)])
    = .error ("`obj` should be either a callable function or a class. Current type: `".toList
      ++ "<class 'dict'>".toList ++ ['`']) from rfl] at h
  exact Except.noConfusion h

/-- C4 (amended): a plain mapping is NOT an accepted input of
get_default_args: like every input that is neither a function nor a class,
it is rejected with the error naming the unsupported kind (for a mapping,
"<class 'dict'>"). -/
theorem C4_default_args_rejects :
    (∀ m : List (Str × PyVal), get_default_args (.mapping m)
      = .error ("`obj` should be either a callable function or a class. Current type: `".toList
        ++ "<class 'dict'>".toList ++ ['`'])) ∧
    (∀ n : Str, get_default_args (.other n)
      = .error ("`obj` should be either a callable function or a class. Current type: `".toList
        ++ n ++ ['`'])) :=
  ⟨fun _ => rfl, fun _ => rfl⟩

/-- C5: for a function or class initializer with at least one named
parameter besides "self": when every such parameter declares a default, the
extractor returns exactly the name-to-default mapping; when one or more
lack a default, it errors, and the message carries a bullet
"\t* {name}" for EVERY parameter without a default, not just the first.
`get_default_from_fn` (for a function with parameters) and
`get_default_from_class` both delegate to this signature inspection. -/
theorem C5_signature_defaults (ps : List (Str × Option PyVal))
    (_hne : ps.filter (fun kv => kv.1 ≠ "self".toList) ≠ []) :
    (missingOf ps = [] → get_default_from_signature ps = .ok (givenOf ps)) ∧
    (missingOf ps ≠ [] →
      get_default_from_signature ps = .error (missingDefaultsMsg (missingOf ps)) ∧
      ∀ name, (name, (none : Option PyVal)) ∈ ps → name ≠ "self".toList →
        name ∈ missingOf ps ∧
        (['\t', '*', ' '] ++ name) <:+: missingDefaultsMsg (missingOf ps)) ∧
    (∀ ret, ps ≠ [] → get_default_from_fn ps ret = get_default_from_signature ps) ∧
    get_default_from_class ps = get_default_from_signature ps := by
  refine ⟨?_, ?_, ?_, rfl⟩
  · intro hmiss
    rw [get_default_from_signature_eq, if_neg (fun hc => hc hmiss)]
  · intro hmiss
    refine ⟨by rw [get_default_from_signature_eq, if_pos hmiss], ?_⟩
    intro name hmem hself
    have hin : name ∈ missingOf ps := by
      rw [missingOf]
      apply List.mem_map.mpr
      refine ⟨(name, none), ?_, rfl⟩
      apply List.mem_filter.mpr
      refine ⟨hmem, ?_⟩
      simp
      exact fun e => hself e
    refine ⟨hin, ?_⟩
    rw [missingDefaultsMsg]
    apply infix_append_of_infix
    apply infix_intercalate
    exact List.mem_map.mpr ⟨name, hin, rfl⟩
  · intro ret hps
    rw [get_default_from_fn, if_neg]
    intro hlen
    exact hps (List.length_eq_zero.mp hlen)

/-- Witness for C5_signature_defaults at the signature (arg1=12, arg2=43). -/
theorem C5_signature_defaults_witness :
    ([(("arg1".toList : Str), some (PyVal.vint 12)),
        ("arg2".toList, some (PyVal.vint 43))].filter
      (fun kv => kv.1 ≠ "self".toList) ≠ []) ∧
    get_default_from_signature
        [("arg1".toList, some (PyVal.vint 12)), ("arg2".toList, some (PyVal.vint 43))]
      = .ok [("arg1".toList, PyVal.vint 12), ("arg2".toList, PyVal.vint 43)] :=
  ⟨by decide,
    (C5_signature_defaults
      [("arg1".toList, some (PyVal.vint 12)), ("arg2".toList, some (PyVal.vint 43))]
      (by decide)).1 (by decide)⟩

theorem overrideCli_spec : ∀ {cli : List Str} {ns flat : List (Str × PyVal)},
    (∀ k ∈ cli, (List.lookup k ns).isSome = true) →
    ∃ flat', overrideCli cli ns flat = .ok flat' ∧
      (∀ k ∈ cli, List.lookup k flat' = List.lookup k ns) ∧
      (∀ k, k ∉ cli → List.lookup k flat' = List.lookup k flat) := by
  intro cli
  induction cli with
  | nil =>
    intro ns flat _
    exact ⟨flat, rfl, fun k hk => absurd hk (List.not_mem_nil k), fun _ _ => rfl⟩
  | cons k ks ih =>
    intro ns flat hknown
    have hk : (List.lookup k ns).isSome = true := hknown k (List.mem_cons_self _ _)
    rcases hv : List.lookup k ns with _ | v
    · rw [hv] at hk
      exact Bool.noConfusion hk
    · obtain ⟨flat', he, hin, hout⟩ :=
        @ih ns (dinsert k v flat)
          (fun q hq => hknown q (List.mem_cons_of_mem _ hq))
      refine ⟨flat', ?_, ?_, ?_⟩
      · rw [overrideCli, hv]
        exact he
      · intro q hq
        rcases List.mem_cons.mp hq with hq | hq
        · subst hq
          by_cases hqks : q ∈ ks
          · exact hin q hqks
          · rw [hout q hqks, lookup_dinsert_self, hv]
        · exact hin q hq
      · intro q hq
        rw [List.mem_cons, not_or] at hq
        rw [hout q hq.2, lookup_dinsert_ne hq.1]

theorem cfgExFlat : flatten_dict '.' (cfgExFs "cfg.yaml".toList)
    = [("a.b".toList, PyVal.vint 1)] := by
  simp [cfgExFs, flatten_dict, flattenAux, updAll, dinsert]

/-- C1: in the cfg_from-merge of a full parse, every explicitly passed CLI
key that the parser knows overwrites the file-derived flat value with the
CLI-parsed one, and every other key keeps the file-derived value; on the
concrete example (file {"a": {"b": 1}}, parser default a.b = 7), passing
"--a.b 2" yields merged a.b = 2 and not passing it yields merged a.b = 1
despite the registered default 7. -/
theorem C1_cfg_merge (cli : List Str) (ns flat : List (Str × PyVal))
    (hknown : ∀ k ∈ cli, (List.lookup k ns).isSome = true) :
    (∃ flat', overrideCli cli ns flat = .ok flat' ∧
      (∀ k ∈ cli, List.lookup k flat' = List.lookup k ns) ∧
      (∀ k, k ∉ cli → List.lookup k flat' = List.lookup k flat)) ∧
    merged_flat_cfg cfgExOpts cfgExFs cfgExArgv1 false = .ok [("a.b".toList, PyVal.vint 2)] ∧
    merged_flat_cfg cfgExOpts cfgExFs cfgExArgv2 false = .ok [("a.b".toList, PyVal.vint 1)] ∧
    (∃ ns2 : List (Str × PyVal), parse_known_args cfgExOpts cfgExArgv2 = .ok (ns2, []) ∧
      List.lookup "a.b".toList ns2 = some (PyVal.vint 7)) := by
  refine ⟨overrideCli_spec hknown, ?_, ?_, ?_⟩
  · have h0 : merged_flat_cfg cfgExOpts cfgExFs cfgExArgv1 false
        = overrideCli ["a.b".toList]
            [("seed".toList, PyVal.vint 0), ("cfg_from".toList, PyVal.vstr "cfg.yaml".toList),
              ("workdir".toList, PyVal.vnone), ("a.b".toList, PyVal.vint 2)]
            (flatten_dict '.' (cfgExFs "cfg.yaml".toList)) := rfl
    rw [h0, cfgExFlat]
    decide
  · have h0 : merged_flat_cfg cfgExOpts cfgExFs cfgExArgv2 false
        = overrideCli []
            [("seed".toList, PyVal.vint 0), ("cfg_from".toList, PyVal.vstr "cfg.yaml".toList),
              ("workdir".toList, PyVal.vnone), ("a.b".toList, PyVal.vint 7)]
            (flatten_dict '.' (cfgExFs "cfg.yaml".toList)) := rfl
    rw [h0, cfgExFlat]
    decide
  · refine ⟨[("seed".toList, PyVal.vint 0), ("cfg_from".toList, PyVal.vstr "cfg.yaml".toList),
      ("workdir".toList, PyVal.vnone), ("a.b".toList, PyVal.vint 7)], ?_, ?_⟩
    · decide
    · decide

/-- Witness for C1_cfg_merge: the override loop with one known key. -/
theorem C1_cfg_merge_witness :
    (∀ k ∈ (["a.b".toList] : List Str),
      (List.lookup k [("a.b".toList, PyVal.vint 2)]).isSome = true) ∧
    (∃ flat', overrideCli ["a.b".toList] [("a.b".toList, PyVal.vint 2)]
        [("a.b".toList, PyVal.vint 1)] = .ok flat' ∧
      (∀ k ∈ (["a.b".toList] : List Str),
        List.lookup k flat' = List.lookup k [("a.b".toList, PyVal.vint 2)]) ∧
      (∀ k, k ∉ (["a.b".toList] : List Str) →
        List.lookup k flat' = List.lookup k [("a.b".toList, PyVal.vint 1)])) :=
  ⟨by decide, (C1_cfg_merge ["a.b".toList] [("a.b".toList, PyVal.vint 2)]
    [("a.b".toList, PyVal.vint 1)] (by decide)).1⟩

theorem take_drop_dashes {arg k : Str} :
    (arg.take 2 = ['-', '-'] ∧ arg.drop 2 = k) ↔ arg = '-' :: '-' :: k := by
  cases arg with
  | nil => simp
  | cons x xs =>
    cases xs with
    | nil => simp
    | cons y t => simp [List.take, List.drop, and_assoc]

theorem cli_foldl_mem : ∀ (l : List Str) (s : List Str) (k : Str),
    k ∈ l.foldl (fun s arg =>
        if arg.take 2 = ['-', '-'] then
          (if arg.drop 2 ∈ s then s else s ++ [arg.drop 2])
        else s) s
      ↔ (k ∈ s ∨ ∃ arg ∈ l, arg.take 2 = ['-', '-'] ∧ arg.drop 2 = k) := by
  intro l
  induction l with
  | nil =>
    intro s k
    simp
  | cons arg rest ih =>
    intro s k
    rw [List.foldl_cons]
    by_cases h : arg.take 2 = ['-', '-']
    · rw [if_pos h]
      by_cases hm : arg.drop 2 ∈ s
      · rw [if_pos hm, ih]
        constructor
        · intro h'
          rcases h' with h' | ⟨a, ha, hp⟩
          · exact Or.inl h'
          · exact Or.inr ⟨a, List.mem_cons_of_mem _ ha, hp⟩
        · intro h'
          rcases h' with h' | ⟨a, ha, hp⟩
          · exact Or.inl h'
          · rcases List.mem_cons.mp ha with ha | ha
            · subst ha
              exact Or.inl (hp.2 ▸ hm)
            · exact Or.inr ⟨a, ha, hp⟩
      · rw [if_neg hm, ih]
        constructor
        · intro h'
          rcases h' with h' | ⟨a, ha, hp⟩
          · rcases List.mem_append.mp h' with h' | h'
            · exact Or.inl h'
            · rcases List.mem_cons.mp h' with h' | h'
              · exact Or.inr ⟨arg, List.mem_cons_self _ _, h, h'.symm⟩
              · exact absurd h' (List.not_mem_nil k)
          · exact Or.inr ⟨a, List.mem_cons_of_mem _ ha, hp⟩
        · intro h'
          rcases h' with h' | ⟨a, ha, hp⟩
          · exact Or.inl (List.mem_append_left _ h')
          · rcases List.mem_cons.mp ha with ha | ha
            · subst ha
              exact Or.inl (List.mem_append_right _ (hp.2 ▸ List.mem_cons_self _ _))
            · exact Or.inr ⟨a, ha, hp⟩
    · rw [if_neg h, ih]
      constructor
      · intro h'
        rcases h' with h' | ⟨a, ha, hp⟩
        · exact Or.inl h'
        · exact Or.inr ⟨a, List.mem_cons_of_mem _ ha, hp⟩
      · intro h'
        rcases h' with h' | ⟨a, ha, hp⟩
        · exact Or.inl h'
        · rcases List.mem_cons.mp ha with ha | ha
          · subst ha
            exact absurd hp.1 h
          · exact Or.inr ⟨a, ha, hp⟩

theorem cliExFlat : flatten_dict '.' (cliExFs "c.yaml".toList)
    = [("lr".toList, PyVal.vint 1)] := by
  simp [cliExFs, flatten_dict, flattenAux, dinsert]

/-- C9: get_cli_passed_args returns exactly the stripped "--" tokens of
argv[1:] minus "cfg_from"; a "--lr=3" token contributes "lr=3" (not "lr"),
which is not a known key, so in a known-only config merge the file value of
"lr" survives (even though argparse itself parsed the flag into the
namespace), and a full-parse config merge rejects "lr=3" as unknown. -/
theorem C9_cli_passed_args :
    (∀ (argv : List Str) (k : Str),
      k ∈ get_cli_passed_args argv ↔
        (('-' :: '-' :: k) ∈ argv.drop 1 ∧ k ≠ "cfg_from".toList)) ∧
    get_cli_passed_args cliExArgv = ["lr=3".toList] ∧
    (∃ ns : List (Str × PyVal), parse_known_args cliExOpts cliExArgv = .ok (ns, []) ∧
      List.lookup "lr".toList ns = some (PyVal.vint 3)) ∧
    merged_flat_cfg cliExOpts cliExFs cliExArgv true = .ok [("lr".toList, PyVal.vint 1)] ∧
    merged_flat_cfg cliExOpts cliExFs cliExArgv false
      = .error "Unknown CLI arg passed: `lr=3`.".toList := by
  refine ⟨?_, by decide, ?_, ?_, ?_⟩
  · intro argv k
    rw [get_cli_passed_args, List.mem_filter, cli_foldl_mem]
    constructor
    · intro ⟨h1, h2⟩
      rcases h1 with h1 | ⟨a, ha, hp⟩
      · exact absurd h1 (List.not_mem_nil k)
      · refine ⟨take_drop_dashes.mp hp ▸ ha, ?_⟩
        intro hc
        rw [hc] at h2
        simp at h2
    · intro ⟨h1, h2⟩
      refine ⟨Or.inr ⟨'-' :: '-' :: k, h1, take_drop_dashes.mpr rfl⟩, ?_⟩
      simp
      exact fun e => h2 e
  · refine ⟨[("seed".toList, PyVal.vint 0), ("cfg_from".toList, PyVal.vstr "c.yaml".toList),
      ("workdir".toList, PyVal.vnone), ("lr".toList, PyVal.vint 3)], by decide, by decide⟩
  · have h0 : merged_flat_cfg cliExOpts cliExFs cliExArgv true
        = overrideCli []
            [("seed".toList, PyVal.vint 0), ("cfg_from".toList, PyVal.vstr "c.yaml".toList),
              ("workdir".toList, PyVal.vnone), ("lr".toList, PyVal.vint 3)]
            (flatten_dict '.' (cliExFs "c.yaml".toList)) := rfl
    rw [h0, cliExFlat]
    decide
  · rfl

/-- Witness for C9_cli_passed_args: the characterization at a concrete argv. -/
theorem C9_cli_passed_args_witness :
    "lr=3".toList ∈ get_cli_passed_args cliExArgv ↔
      (('-' :: '-' :: "lr=3".toList) ∈ cliExArgv.drop 1 ∧ "lr=3".toList ≠ "cfg_from".toList) :=
  (C9_cli_passed_args.1 cliExArgv "lr=3".toList)

theorem infix_of_mem_flatten {x : Str} : ∀ {L : List Str}, x ∈ L → x <:+: L.flatten := by
  intro L
  induction L with
  | nil => exact fun h => absurd h (List.not_mem_nil x)
  | cons y rest ih =>
    intro h
    rw [List.flatten_cons]
    rcases List.mem_cons.mp h with h | h
    · subst h
      exact ⟨[], rest.flatten, by rw [List.nil_append]⟩
    · exact infix_append_of_infix (ih h)

theorem check_missing_keys_char {opts : List RegOpt} {args : Dict} :
    check_missing_keys opts args = .ok () ↔
      (((parse_args_empty opts).map Prod.fst).filter
          (fun k => !(((flatten_dict '.' args).map Prod.fst).contains k)) = [] ∧
        ((flatten_dict '.' args).map Prod.fst).filter
          (fun k => !(((parse_args_empty opts).map Prod.fst).contains k)) = []) := by
  rw [check_missing_keys]
  rcases hm : ((parse_args_empty opts).map Prod.fst).filter
      (fun k => !(((flatten_dict '.' args).map Prod.fst).contains k)) with _ | ⟨m, ms⟩
  · rcases ha : ((flatten_dict '.' args).map Prod.fst).filter
        (fun k => !(((parse_args_empty opts).map Prod.fst).contains k)) with _ | ⟨a, as⟩
    · simp [hm, ha]
    · simp [hm, ha]
  · simp [hm]

theorem filter_not_contains_nil {pk ak : List Str} :
    pk.filter (fun k => !(ak.contains k)) = [] ↔ ∀ k ∈ pk, k ∈ ak := by
  rw [List.filter_eq_nil_iff]
  constructor
  · intro h k hk
    have := h k hk
    simp at this
    exact this
  · intro h k hk
    simp
    exact h k hk

theorem mem_filter_not_contains {pk ak : List Str} {k : Str} (h1 : k ∈ pk) (h2 : k ∉ ak) :
    k ∈ pk.filter (fun q => !(ak.contains q)) := by
  apply List.mem_filter.mpr
  refine ⟨h1, ?_⟩
  simp
  exact h2

theorem valExMerged : merged_flat_cfg getParserOpts valExFs valExArgv true
    = .ok [("seed".toList, PyVal.vint 5)] := by
  have h0 : merged_flat_cfg getParserOpts valExFs valExArgv true
      = overrideCli []
          [("seed".toList, PyVal.vint 0), ("cfg_from".toList, PyVal.vstr "c.yaml".toList),
            ("workdir".toList, PyVal.vnone)]
          (flatten_dict '.' (valExFs "c.yaml".toList)) := rfl
  have hflat : flatten_dict '.' (valExFs "c.yaml".toList) = [("seed".toList, PyVal.vint 5)] := by
    simp [valExFs, flatten_dict, flattenAux, dinsert]
  rw [h0, hflat]
  rfl

theorem valExCore : parse_args_core getParserOpts valExFs valExArgv true
    = .ok [("seed".toList, Entry.leaf (PyVal.vint 5))] := by
  have h1 : parse_args_core getParserOpts valExFs valExArgv true
      = Except.bind (merged_flat_cfg getParserOpts valExFs valExArgv true) (fun flat =>
          Except.bind
            (match unflatten_dict '.' (flat.filter (fun p =>
                (["seed".toList, "cfg_from".toList, "workdir".toList] : List Str).contains p.1)) with
            | some d => Except.ok d
            | none => Except.error "TypeError in unflatten_dict".toList)
            (fun args => Except.ok args)) := rfl
  rw [h1, valExMerged]
  have h2 : ∀ (f : List (Str × PyVal) → Except Str Dict),
      Except.bind (Except.ok [("seed".toList, PyVal.vint 5)]) f
        = f [("seed".toList, PyVal.vint 5)] :=
    fun _ => rfl
  rw [h2]
  have hunf : unflatten_dict '.' ([("seed".toList, PyVal.vint 5)].filter (fun p =>
      (["seed".toList, "cfg_from".toList, "workdir".toList] : List Str).contains p.1))
      = some [("seed".toList, Entry.leaf (PyVal.vint 5))] := by
    simp [unflatten_dict, insertAll, insert_rec, pySplit, dinsert]
  rw [hunf]
  rfl

/-- C3: post-merge validation succeeds iff the flattened actual key set
equals the parser's authoritative key set (obtained by re-parsing with no
arguments); when declared keys are missing it raises the "Missing keys"
error carrying a bullet for every missing key; when (and only when no key
is missing) extra keys are present it raises the "Unknown keys" error
carrying a bullet for every additional key. The validation runs only on a
full parse: the concrete known-only parse returns a configuration holding
only "seed" even though that configuration fails check_missing_keys. -/
theorem C3_check_missing_keys :
    (∀ (opts : List RegOpt) (args : Dict),
      check_missing_keys opts args = .ok () ↔
        (∀ k, k ∈ (parse_args_empty opts).map Prod.fst ↔
          k ∈ (flatten_dict '.' args).map Prod.fst)) ∧
    (∀ (opts : List RegOpt) (args : Dict),
      (∃ k, k ∈ (parse_args_empty opts).map Prod.fst ∧
          k ∉ (flatten_dict '.' args).map Prod.fst) →
      ∃ msg, check_missing_keys opts args = .error msg ∧
        ("Missing keys in config:".toList <+: msg) ∧
        ∀ k, k ∈ (parse_args_empty opts).map Prod.fst →
          k ∉ (flatten_dict '.' args).map Prod.fst →
          ("\n    * `".toList ++ k ++ ['`']) <:+: msg) ∧
    (∀ (opts : List RegOpt) (args : Dict),
      (∀ k ∈ (parse_args_empty opts).map Prod.fst,
        k ∈ (flatten_dict '.' args).map Prod.fst) →
      (∃ k, k ∈ (flatten_dict '.' args).map Prod.fst ∧
          k ∉ (parse_args_empty opts).map Prod.fst) →
      ∃ msg, check_missing_keys opts args = .error msg ∧
        ("Unknown keys in arguments not required by program:".toList <+: msg) ∧
        ∀ k, k ∈ (flatten_dict '.' args).map Prod.fst →
          k ∉ (parse_args_empty opts).map Prod.fst →
          ("\n    * `".toList ++ k ++ ['`']) <:+: msg) ∧
    parse_args_core getParserOpts valExFs valExArgv true
      = .ok [("seed".toList, Entry.leaf (PyVal.vint 5))] ∧
    check_missing_keys getParserOpts [("seed".toList, Entry.leaf (PyVal.vint 5))] ≠ .ok () := by
  refine ⟨?_, ?_, ?_, valExCore, ?_⟩
  · intro opts args
    rw [check_missing_keys_char, filter_not_contains_nil, filter_not_contains_nil]
    constructor
    · intro ⟨h1, h2⟩ k
      exact ⟨h1 k, h2 k⟩
    · intro h
      exact ⟨fun k hk => (h k).mp hk, fun k hk => (h k).mpr hk⟩
  · intro opts args ⟨k0, hk0, hk0'⟩
    have hmiss : ((parse_args_empty opts).map Prod.fst).filter
        (fun k => !(((flatten_dict '.' args).map Prod.fst).contains k)) ≠ [] := by
      intro hc
      exact hk0' (filter_not_contains_nil.mp hc k0 hk0)
    rcases hm : ((parse_args_empty opts).map Prod.fst).filter
        (fun k => !(((flatten_dict '.' args).map Prod.fst).contains k)) with _ | ⟨m, ms⟩
    · exact absurd hm hmiss
    · refine ⟨"Missing keys in config:".toList
        ++ ((m :: ms).map (fun k => "\n    * `".toList ++ k ++ ['`'])).flatten, ?_, ?_, ?_⟩
      · rw [check_missing_keys, hm]
        simp
      · exact ⟨_, rfl⟩
      · intro k hk hk'
        apply infix_append_of_infix
        apply infix_of_mem_flatten
        apply List.mem_map.mpr
        exact ⟨k, hm ▸ mem_filter_not_contains hk hk', rfl⟩
  · intro opts args hincl ⟨k0, hk0, hk0'⟩
    have hmiss : ((parse_args_empty opts).map Prod.fst).filter
        (fun k => !(((flatten_dict '.' args).map Prod.fst).contains k)) = [] :=
      filter_not_contains_nil.mpr hincl
    have hadd : ((flatten_dict '.' args).map Prod.fst).filter
        (fun k => !(((parse_args_empty opts).map Prod.fst).contains k)) ≠ [] := by
      intro hc
      exact hk0' (filter_not_contains_nil.mp hc k0 hk0)
    rcases ha : ((flatten_dict '.' args).map Prod.fst).filter
        (fun k => !(((parse_args_empty opts).map Prod.fst).contains k)) with _ | ⟨a, as⟩
    · exact absurd ha hadd
    · refine ⟨"Unknown keys in arguments not required by program:".toList
        ++ ((a :: as).map (fun k => "\n    * `".toList ++ k ++ ['`'])).flatten, ?_, ?_, ?_⟩
      · rw [check_missing_keys, hmiss, ha]
        simp
      · exact ⟨_, rfl⟩
      · intro k hk hk'
        apply infix_append_of_infix
        apply infix_of_mem_flatten
        apply List.mem_map.mpr
        exact ⟨k, ha ▸ mem_filter_not_contains hk hk', rfl⟩
  · intro hc
    rw [check_missing_keys_char] at hc
    have hf : flatten_dict '.' [("seed".toList, Entry.leaf (PyVal.vint 5))]
        = [("seed".toList, PyVal.vint 5)] := by
      simp [flatten_dict, flattenAux, dinsert]
    rw [hf] at hc
    have := filter_not_contains_nil.mp hc.1 "cfg_from".toList (by decide)
    revert this
    decide

/-- Witness for C3_check_missing_keys: validation succeeds on a complete
configuration for the reserved parser. -/
theorem C3_check_missing_keys_witness :
    check_missing_keys getParserOpts
        [("seed".toList, Entry.leaf (PyVal.vint 0)),
          ("cfg_from".toList, Entry.leaf PyVal.vnone),
          ("workdir".toList, Entry.leaf PyVal.vnone)] = .ok () :=
  (C3_check_missing_keys.1 getParserOpts _).mpr (by
    intro k
    constructor
    · intro hk
      revert hk
      have hf : flatten_dict '.'
          [("seed".toList, Entry.leaf (PyVal.vint 0)),
            ("cfg_from".toList, Entry.leaf PyVal.vnone),
            ("workdir".toList, Entry.leaf PyVal.vnone)]
          = [("seed".toList, PyVal.vint 0), ("cfg_from".toList, PyVal.vnone),
              ("workdir".toList, PyVal.vnone)] := by
        simp [flatten_dict, flattenAux, dinsert]
      rw [hf]
      exact fun h => h
    · have hf : flatten_dict '.'
          [("seed".toList, Entry.leaf (PyVal.vint 0)),
            ("cfg_from".toList, Entry.leaf PyVal.vnone),
            ("workdir".toList, Entry.leaf PyVal.vnone)]
          = [("seed".toList, PyVal.vint 0), ("cfg_from".toList, PyVal.vnone),
              ("workdir".toList, PyVal.vnone)] := by
        simp [flatten_dict, flattenAux, dinsert]
      rw [hf]
      exact fun h => h)

theorem wdLoop_not_exists {pathExists : Str → Bool} {script day time : Str} :
    ∀ {fuel idx : Nat} {wd w : Str},
    wdLoop pathExists script day time fuel idx wd = some w → pathExists w = false := by
  intro fuel
  induction fuel with
  | zero =>
    intro idx wd w h
    rw [wdLoop] at h
    by_cases he : pathExists wd = true
    · rw [if_pos he] at h
      exact Option.noConfusion h
    · rw [if_neg he] at h
      rw [← Option.some.inj h]
      exact Bool.not_eq_true _ ▸ he
  | succ f ih =>
    intro idx wd w h
    rw [wdLoop] at h
    by_cases he : pathExists wd = true
    · rw [if_pos he] at h
      exact ih h
    · rw [if_neg he] at h
      rw [← Option.some.inj h]
      exact Bool.not_eq_true _ ▸ he

/-- C8: the Workdir Resolver computes ./runs/{script}/{day}/{time}; when
that path does not exist it is returned as is; any returned path does not
exist in the modelled filesystem, and it is stored in the configuration's
workdir field; two invocations where the second filesystem contains the
first result (two runs in the same second) return distinct paths; on a
filesystem where exactly the plain candidate exists, the resolver returns
the candidate with time suffix "(2)". -/
theorem C8_check_workdir :
    (∀ s d t : Str, wdPath s d t = "./runs".toList ++ '/' :: s ++ '/' :: d ++ '/' :: t) ∧
    (∀ (pE : Str → Bool) (s d t : Str) (fuel : Nat),
      pE (wdPath s d t) = false → resolve_workdir pE s d t fuel = some (wdPath s d t)) ∧
    (∀ (pE : Str → Bool) (s d t : Str) (fuel : Nat) (wd : Str),
      resolve_workdir pE s d t fuel = some wd → pE wd = false) ∧
    (∀ (pE : Str → Bool) (s d t : Str) (fuel : Nat) (args : Dict) (wd : Str),
      resolve_workdir pE s d t fuel = some wd →
      check_workdir pE s d t fuel args
        = some (dinsert "workdir".toList (Entry.leaf (PyVal.vstr wd)) args)) ∧
    (∀ (pE1 pE2 : Str → Bool) (s d t : Str) (fuel : Nat) (wd1 wd2 : Str),
      resolve_workdir pE1 s d t fuel = some wd1 →
      resolve_workdir pE2 s d t fuel = some wd2 →
      pE2 wd1 = true → wd2 ≠ wd1) ∧
    resolve_workdir (fun p => p == wdPath "prog".toList "d1".toList "t1".toList)
        "prog".toList "d1".toList "t1".toList 5
      = some (wdPath "prog".toList "d1".toList ("t1".toList ++ "(2)".toList)) := by
  refine ⟨?_, ?_, ?_, ?_, ?_, ?_⟩
  · intro s d t
    rw [wdPath, ospJoin, ospJoin, ospJoin, List.append_assoc, List.append_assoc]
  · intro pE s d t fuel hfree
    have hif : pE (wdPath s d t) = true → False := by
      rw [hfree]
      exact fun hc => Bool.noConfusion hc
    rw [resolve_workdir]
    cases fuel with
    | zero => rw [wdLoop, if_neg hif]
    | succ f => rw [wdLoop, if_neg hif]
  · intro pE s d t fuel wd h
    exact wdLoop_not_exists h
  · intro pE s d t fuel args wd h
    rw [check_workdir, h]
  · intro pE1 pE2 s d t fuel wd1 wd2 h1 h2 hex
    intro hc
    have := wdLoop_not_exists h2
    rw [hc, hex] at this
    exact Bool.noConfusion this
  · decide

/-- Witness for C8_check_workdir: on an empty filesystem the plain candidate
path is returned unchanged. -/
theorem C8_check_workdir_witness :
    resolve_workdir (fun _ => false) "p".toList "d".toList "t".toList 3
      = some (wdPath "p".toList "d".toList "t".toList) :=
  C8_check_workdir.2.1 (fun _ => false) "p".toList "d".toList "t".toList 3 rfl

/-- Witness for C10_flatten_drops_empty: the general part at a concrete
entry. -/
theorem C10_flatten_drops_empty_witness :
    flatten_dict '.' ([] ++ (['a'], Entry.sub []) :: [(['b'], Entry.leaf (PyVal.vint 2))])
      = flatten_dict '.' ([] ++ [(['b'], Entry.leaf (PyVal.vint 2))]) :=
  C10_flatten_drops_empty.1 '.' [] [(['b'], Entry.leaf (PyVal.vint 2))] ['a']

/-- Witness for C6_str2bool: the characterization at the string "TRUE". -/
theorem C6_str2bool_witness :
    str2bool (.vstr "TRUE".toList) = .ok true ↔
      pyLower "TRUE".toList ∈
        ["yes".toList, "true".toList, "t".toList, "y".toList, "1".toList] :=
  (C6_str2bool.1 "TRUE".toList).1

/-- Witness for C7_add_args: the length equation at a one-option parser. -/
theorem C7_add_args_witness :
    (add_args [] [(['l', 'r'], PyVal.vint 3)] []).length
      = ([] : List RegOpt).length + [(['l', 'r'], PyVal.vint 3)].length :=
  (C7_add_args [] [(['l', 'r'], PyVal.vint 3)] []).1

/-- Witness for C4_default_args_rejects at a one-entry mapping. -/
theorem C4_default_args_rejects_witness :
    get_default_args (.mapping [(['a'], PyVal.vint 1)])
      = .error ("`obj` should be either a callable function or a class. Current type: `".toList
        ++ "<class 'dict'>".toList ++ ['`']) :=
  C4_default_args_rejects.1 [(['a'], PyVal.vint 1)]
